import Mathlib

/-
Verification of `tuned_lens/model_surgery.py`: a shallow embedding of the
module's key-path resolver, scoped mutation helpers, architecture locators
and layer operations over an explicit heap of Python-style objects.

The heap model: a Python object is a class tag, an association list of
named attributes (addresses of other objects) and an ordered list of
indexed children (addresses).  `getattr`/`setattr` act on the attribute
list, `obj[i]` / `obj[i] = v` / `del obj[i]` act on the item list with
Python's negative-index normalisation.  A heap is a list of objects and
an address is a position in that list; object identity is address
equality.  Digit detection is restricted to ASCII decimal digits, the
domain the spec's claims speak about.
-/

namespace ModelSurgery

/-- Class tag of an embedded Python object: the architecture classes the
source dispatches on with `isinstance`, plus `moduleList` for
`th.nn.ModuleList`, `layerNorm` for `th.nn.LayerNorm`, `noneType` for
`None`, and `plain` for everything else. -/
inductive PyClass where
  | optModel
  | gptNeoXModel
  | bloomModel
  | gpt2Model
  | gptNeoModel
  | gptjModel
  | moduleList
  | layerNorm
  | noneType
  | plain
deriving DecidableEq, Repr

/-- An address into the heap. -/
abbrev Addr := Nat

/-- A Python-style object: class tag, named attributes, indexed children. -/
structure PyObj where
  cls : PyClass
  attrs : List (String × Addr)
  items : List Addr
deriving DecidableEq, Repr

/-- The heap: object at address `a` is the `a`-th entry. -/
abbrev Heap := List PyObj

/-- Read the object stored at an address. -/
def heapGet (h : Heap) (a : Addr) : Option PyObj := h.get? a

/-- Overwrite the object stored at an address (no-op on dangling addresses). -/
def heapSet (h : Heap) (a : Addr) (o : PyObj) : Heap := h.set a o

/-- Allocate a fresh object, returning its address and the grown heap. -/
def alloc (h : Heap) (o : PyObj) : Addr × Heap := (h.length, h ++ [o])

/-- First-match lookup in an attribute list, as Python attribute lookup. -/
def lookupAttr : List (String × Addr) → String → Option Addr
  | [], _ => none
  | (k, v) :: rest, key => if k = key then some v else lookupAttr rest key

/-- Python `setattr` on an attribute list: replace the first binding of the
name, or append a new binding. -/
def setAttrList : List (String × Addr) → String → Addr → List (String × Addr)
  | [], key, v => [(key, v)]
  | (k, w) :: rest, key, v =>
    if k = key then (k, v) :: rest else (k, w) :: setAttrList rest key v

/-- Errors raised by the embedded code, tagged by Python exception class. -/
inductive Err where
  | attributeError (key : String)
  | indexError
  | valueError (msg : String)
  | notImplementedError
  | assertionError
  | userError (code : Nat)
deriving DecidableEq, Repr

/-- Python `str.isdigit` restricted to ASCII decimal digits: true exactly when
the string is nonempty and every character is a decimal digit. -/
def strIsDigit (s : String) : Bool :=
  !s.data.isEmpty && s.data.all (fun c => c.isDigit)

/-- Python `int(...)` on an all-digit string: its decimal value. -/
def strToNat (s : String) : Nat :=
  s.data.foldl (fun n c => 10 * n + (c.toNat - 48)) 0

/-- Python list-index normalisation: a negative index counts from the end;
`none` models an `IndexError`. -/
def pyNorm (len : Nat) (i : Int) : Option Nat :=
  let j := if i < 0 then i + len else i
  if 0 ≤ j ∧ j < len then some j.toNat else none

/-- Accumulator-style split of a character list at `.`, modelling Python
`str.split(".")`; always returns a nonempty list of segments. -/
def splitChars : List Char → List Char → List (List Char)
  | [], acc => [acc.reverse]
  | c :: cs, acc =>
    if c = '.' then acc.reverse :: splitChars cs [] else splitChars cs (c :: acc)

/-- Python `key_path.split(".")`. -/
def splitKeys (s : String) : List String :=
  (splitChars s.data []).map String.mk

/-- `get_value_for_key(obj, key)` from the source: get a value using
`__getitem__` if `key` is numeric and `getattr` otherwise. -/
def get_value_for_key (h : Heap) (a : Addr) (key : String) : Except Err Addr :=
  match heapGet h a with
  | none => .error (.attributeError key)
  | some o =>
    if strIsDigit key then
      match o.items.get? (strToNat key) with
      | some v => .ok v
      | none => .error .indexError
    else
      match lookupAttr o.attrs key with
      | some v => .ok v
      | none => .error (.attributeError key)

/-- `set_value_for_key_(obj, key, value)` from the source: item-assignment if
`key` is numeric (Python `obj[int(key)] = value`, an `IndexError` when out of
range) and `setattr` otherwise. -/
def set_value_for_key_ (h : Heap) (a : Addr) (key : String) (value : Addr) :
    Except Err Heap :=
  match heapGet h a with
  | none => .error (.attributeError key)
  | some o =>
    if strIsDigit key then
      if strToNat key < o.items.length then
        .ok (heapSet h a { o with items := o.items.set (strToNat key) value })
      else .error .indexError
    else .ok (heapSet h a { o with attrs := setAttrList o.attrs key value })

/-- Plain Python attribute read `obj.name`, used by the source's locator
functions (`base_model.decoder`, `base_model.ln_f`, ...). -/
def getattrE (h : Heap) (a : Addr) (key : String) : Except Err Addr :=
  match heapGet h a with
  | none => .error (.attributeError key)
  | some o =>
    match lookupAttr o.attrs key with
    | some v => .ok v
    | none => .error (.attributeError key)

/-- Python `setattr(obj, key, value)`: unconditional attribute assignment,
the operation `set_key_path_` performs at the last segment. -/
def setattrE (h : Heap) (a : Addr) (key : String) (value : Addr) :
    Except Err Heap :=
  match heapGet h a with
  | none => .error (.attributeError key)
  | some o => .ok (heapSet h a { o with attrs := setAttrList o.attrs key value })

/-- The segment-walking loop shared by `get_key_path` and `set_key_path_`:
fold `get_value_for_key` over a list of segments. -/
def walkKeys (h : Heap) (a : Addr) : List String → Except Err Addr
  | [] => .ok a
  | k :: rest =>
    match get_value_for_key h a k with
    | .error e => .error e
    | .ok a' => walkKeys h a' rest

/-- `get_key_path(model, key_path)` from the source: split on `.` and walk
every segment with `get_value_for_key`. -/
def get_key_path (h : Heap) (model : Addr) (key_path : String) : Except Err Addr :=
  walkKeys h model (splitKeys key_path)

/-- `set_key_path_(model, key_path, value)` from the source: walk all but the
last segment with `get_value_for_key`, then `setattr(model, keys[-1], value)`
(the source uses plain `setattr` here, not `set_value_for_key_`). -/
def set_key_path_ (h : Heap) (model : Addr) (key_path : String) (value : Addr) :
    Except Err Heap :=
  let keys := splitKeys key_path
  match walkKeys h model keys.dropLast with
  | .error e => .error e
  | .ok m => setattrE h m (keys.getLastD "") value

/-- `assign_key_path(model, key_path, value)`: read and retain the old value,
install `value`, run the body, and restore the old value in a `finally`
block; an exception raised by the restoring `set_key_path_` replaces the
body's outcome, as in Python `try/finally`. -/
def assign_key_path {α : Type} (h : Heap) (model : Addr) (key_path : String)
    (value : Addr) (body : Heap → Except Err α × Heap) : Except Err α × Heap :=
  match get_key_path h model key_path with
  | .error e => (.error e, h)
  | .ok old =>
    match set_key_path_ h model key_path value with
    | .error e => (.error e, h)
    | .ok h1 =>
      let r := body h1
      match set_key_path_ r.2 model key_path old with
      | .error e => (.error e, r.2)
      | .ok h3 => (r.1, h3)

/-- The architecture dispatch of `get_final_norm`: the attribute path to the
final norm for each recognised `base_model` class, `none` when the class is
unrecognised (`NotImplementedError` in the source). -/
def finalNormPath : PyClass → Option (List String)
  | .optModel => some ["decoder", "final_layer_norm"]
  | .gptNeoXModel => some ["final_layer_norm"]
  | .bloomModel => some ["ln_f"]
  | .gpt2Model => some ["ln_f"]
  | .gptNeoModel => some ["ln_f"]
  | .gptjModel => some ["ln_f"]
  | _ => none

/-- Attribute-path read used by the locator branches (`base_model.decoder
.final_layer_norm` and such): plain attribute accesses, not key-path walks. -/
def getattrPath (h : Heap) (a : Addr) : List String → Except Err Addr
  | [] => .ok a
  | k :: rest =>
    match getattrE h a k with
    | .error e => .error e
    | .ok a' => getattrPath h a' rest

/-- `get_final_norm(model)` from the source: require a `base_model`
attribute (`ValueError` otherwise), dispatch on the architecture class
(`NotImplementedError` when unrecognised), reject a `None` final norm
(`ValueError`), and assert the result is a `LayerNorm`. -/
def get_final_norm (h : Heap) (model : Addr) : Except Err Addr :=
  match heapGet h model with
  | none => .error (.attributeError "base_model")
  | some mo =>
    match lookupAttr mo.attrs "base_model" with
    | none => .error (.valueError "Model does not have a `base_model` attribute.")
    | some bm =>
      match heapGet h bm with
      | none => .error (.attributeError "base_model")
      | some bmo =>
        match finalNormPath bmo.cls with
        | none => .error .notImplementedError
        | some p =>
          match getattrPath h bm p with
          | .error e => .error e
          | .ok fln =>
            match heapGet h fln with
            | none => .error (.attributeError "final_layer_norm")
            | some fo =>
              if fo.cls = .noneType then
                .error (.valueError "Model does not have a final layer norm.")
              else if fo.cls = .layerNorm then .ok fln
              else .error .assertionError

/-- The architecture dispatch of `get_transformer_layers`: the key-path
segments appended to `base_model` for each recognised class. -/
def layersPathTail : PyClass → Option (List String)
  | .optModel => some ["decoder", "layers"]
  | .gptNeoXModel => some ["layers"]
  | .bloomModel => some ["h"]
  | .gpt2Model => some ["h"]
  | .gptNeoModel => some ["h"]
  | .gptjModel => some ["h"]
  | _ => none

/-- `get_transformer_layers(model)` from the source: require `base_model`
(`ValueError` otherwise), dispatch on the architecture class
(`NotImplementedError` when unrecognised), join the path and resolve it with
`get_key_path`, returning the path together with the layer list's address. -/
def get_transformer_layers (h : Heap) (model : Addr) :
    Except Err (String × Addr) :=
  match heapGet h model with
  | none => .error (.attributeError "base_model")
  | some mo =>
    match lookupAttr mo.attrs "base_model" with
    | none => .error (.valueError "Model does not have a `base_model` attribute.")
    | some bm =>
      match heapGet h bm with
      | none => .error (.attributeError "base_model")
      | some bmo =>
        match layersPathTail bmo.cls with
        | none => .error .notImplementedError
        | some tail =>
          let p := String.intercalate "." ("base_model" :: tail)
          match get_key_path h model p with
          | .error e => .error e
          | .ok ll => .ok (p, ll)

/-- Python `sorted(indices, reverse=True)`: descending order. -/
def sortedDesc (l : List Int) : List Int :=
  l.insertionSort (fun a b => b ≤ a)

/-- The deletion loop of `delete_layers`: `for i in ...: del modified_list[i]`
on the `ModuleList` at address `ml`, each index normalised against the
current (shrinking) length, raising `IndexError` when out of range. -/
def delDescend (h : Heap) (ml : Addr) : List Int → Except Err Unit × Heap
  | [] => (.ok (), h)
  | i :: rest =>
    match heapGet h ml with
    | none => (.error .indexError, h)
    | some o =>
      match pyNorm o.items.length i with
      | none => (.error .indexError, h)
      | some j =>
        delDescend (heapSet h ml { o with items := o.items.eraseIdx j }) ml rest

/-- `delete_layers(model, indices)`: locate the layer list, copy it into a
fresh `ModuleList`, delete the indices in descending order, install the copy
at the layer path, run the body, and restore the original list object. -/
def delete_layers {α : Type} (h : Heap) (model : Addr) (indices : List Int)
    (body : Heap → Except Err α × Heap) : Except Err α × Heap :=
  match get_transformer_layers h model with
  | .error e => (.error e, h)
  | .ok (lp, ll) =>
    match heapGet h ll with
    | none => (.error .indexError, h)
    | some llo =>
      let a := alloc h { cls := .moduleList, attrs := [], items := llo.items }
      match delDescend a.2 a.1 (sortedDesc indices) with
      | (.error e, h2) => (.error e, h2)
      | (.ok _, h2) =>
        match set_key_path_ h2 model lp a.1 with
        | .error e => (.error e, h2)
        | .ok h3 =>
          let r := body h3
          match set_key_path_ r.2 model lp ll with
          | .error e => (.error e, r.2)
          | .ok h5 => (r.1, h5)

/-- The list comprehension of `permute_layers`: `[layer_list[i] for i in
indices]` with Python index normalisation, raising `IndexError` at the first
out-of-range index. -/
def buildPermuted (items : List Addr) : List Int → Except Err (List Addr)
  | [] => .ok []
  | i :: rest =>
    match pyNorm items.length i with
    | none => .error .indexError
    | some j =>
      match items.get? j with
      | none => .error .indexError
      | some a =>
        match buildPermuted items rest with
        | .error e => .error e
        | .ok l => .ok (a :: l)

/-- `permute_layers(model, indices)`: locate the layer list, build the
selected sequence, wrap it in a fresh `ModuleList`, install it, run the
body, and restore the original list object. -/
def permute_layers {α : Type} (h : Heap) (model : Addr) (indices : List Int)
    (body : Heap → Except Err α × Heap) : Except Err α × Heap :=
  match get_transformer_layers h model with
  | .error e => (.error e, h)
  | .ok (lp, ll) =>
    match heapGet h ll with
    | none => (.error .indexError, h)
    | some llo =>
      match buildPermuted llo.items indices with
      | .error e => (.error e, h)
      | .ok sel =>
        let a := alloc h { cls := .moduleList, attrs := [], items := sel }
        match set_key_path_ a.2 model lp a.1 with
        | .error e => (.error e, a.2)
        | .ok h3 =>
          let r := body h3
          match set_key_path_ r.2 model lp ll with
          | .error e => (.error e, r.2)
          | .ok h5 => (r.1, h5)

/-- The assignment loop of `replace_layers`: `for i, replacement in
zip(indices, replacements): modified_list[i] = replacement` on the
`ModuleList` at address `ml`, with Python index normalisation. -/
def setItemsH (h : Heap) (ml : Addr) : List (Int × Addr) → Except Err Unit × Heap
  | [] => (.ok (), h)
  | (i, r) :: rest =>
    match heapGet h ml with
    | none => (.error .indexError, h)
    | some o =>
      match pyNorm o.items.length i with
      | none => (.error .indexError, h)
      | some j =>
        setItemsH (heapSet h ml { o with items := o.items.set j r }) ml rest

/-- `replace_layers(model, indices, replacements)`: locate the layer list,
copy it, assign the zipped index/replacement pairs, install the copy, run
the body, and restore the original list object. -/
def replace_layers {α : Type} (h : Heap) (model : Addr) (indices : List Int)
    (replacements : List Addr) (body : Heap → Except Err α × Heap) :
    Except Err α × Heap :=
  match get_transformer_layers h model with
  | .error e => (.error e, h)
  | .ok (lp, ll) =>
    match heapGet h ll with
    | none => (.error .indexError, h)
    | some llo =>
      let a := alloc h { cls := .moduleList, attrs := [], items := llo.items }
      match setItemsH a.2 a.1 (indices.zip replacements) with
      | (.error e, h2) => (.error e, h2)
      | (.ok _, h2) =>
        match set_key_path_ h2 model lp a.1 with
        | .error e => (.error e, h2)
        | .ok h3 =>
          let r := body h3
          match set_key_path_ r.2 model lp ll with
          | .error e => (.error e, r.2)
          | .ok h5 => (r.1, h5)

/-- Modelled from the spec: the delete operation's documented result, a copy
of the original item list with the positions listed in `indices` removed
(position membership tested against the given index list). -/
def keepNotListed (indices : List Int) : List Addr → Nat → List Addr
  | [], _ => []
  | x :: xs, pos =>
    if (pos : Int) ∈ indices then keepNotListed indices xs (pos + 1)
    else x :: keepNotListed indices xs (pos + 1)

/-- Decidable equality on `Except`, for evaluating the embedding on concrete
inputs. -/
instance {ε α : Type} [DecidableEq ε] [DecidableEq α] : DecidableEq (Except ε α) :=
  fun x y =>
  match x, y with
  | .ok a, .ok b =>
    if hab : a = b then isTrue (by rw [hab]) else isFalse (by simp [hab])
  | .error e, .error f =>
    if hef : e = f then isTrue (by rw [hef]) else isFalse (by simp [hef])
  | .ok _, .error _ => isFalse (by simp)
  | .error _, .ok _ => isFalse (by simp)

/-- A successfully read address is inside the heap. -/
lemma heapGet_lt {h : Heap} {a : Addr} {o : PyObj} (hg : heapGet h a = some o) :
    a < h.length := by
  by_contra hlt
  have : heapGet h a = none := List.get?_eq_none.mpr (Nat.le_of_not_lt hlt)
  simp [this] at hg

/-- Reading back the address just written. -/
lemma heapGet_set_self {h : Heap} {a : Addr} {o q : PyObj}
    (hg : heapGet h a = some o) : heapGet (heapSet h a q) a = some q :=
  List.get?_set_eq_of_lt q (heapGet_lt hg)

/-- Writing one address leaves every other address unchanged. -/
lemma heapGet_set_ne {h : Heap} {a x : Addr} {o' : PyObj} (hx : x ≠ a) :
    heapGet (heapSet h a o') x = heapGet h x :=
  List.get?_set_ne o' h (fun he => hx he.symm)

/-- Allocation leaves the existing addresses unchanged. -/
lemma heapGet_append {h : Heap} {l : Heap} {a : Addr} (ha : a < h.length) :
    heapGet (h ++ l) a = heapGet h a :=
  List.get?_append ha

/-- The freshly allocated address holds the allocated object. -/
lemma heapGet_alloc_self (h : Heap) (o : PyObj) :
    heapGet (h ++ [o]) h.length = some o :=
  List.get?_concat_length h o

/-- Writing back the value already stored is a no-op. -/
lemma heapSet_same : ∀ {h : Heap} {a : Addr} {o : PyObj},
    heapGet h a = some o → heapSet h a o = h := by
  intro h
  induction h with
  | nil => intro a o hg; simp [heapGet] at hg
  | cons x xs ih =>
    intro a o hg
    cases a with
    | zero =>
      simp [heapGet] at hg
      simp [heapSet, List.set, hg]
    | succ n =>
      have hg' : heapGet xs n = some o := by simpa [heapGet] using hg
      have := ih (a := n) (o := o) hg'
      simp [heapSet, List.set] at this ⊢
      exact this

/-- Reading the attribute just set. -/
lemma lookupAttr_setAttrList_self : ∀ (l : List (String × Addr)) (k : String)
    (v : Addr), lookupAttr (setAttrList l k v) k = some v := by
  intro l k v
  induction l with
  | nil => simp [setAttrList, lookupAttr]
  | cons p rest ih =>
    by_cases hk : p.1 = k
    · simp [setAttrList, hk, lookupAttr]
    · simp [setAttrList, hk, lookupAttr, ih]

/-- Setting an attribute to the value it already has is a no-op. -/
lemma setAttrList_same : ∀ {l : List (String × Addr)} {k : String} {v : Addr},
    lookupAttr l k = some v → setAttrList l k v = l := by
  intro l
  induction l with
  | nil => intro k v hl; simp [lookupAttr] at hl
  | cons p rest ih =>
    intro k v hl
    obtain ⟨k', v'⟩ := p
    by_cases hk : k' = k
    · simp [lookupAttr, hk] at hl
      simp [setAttrList, hk, hl]
    · simp [lookupAttr, hk] at hl
      simp [setAttrList, hk, ih hl]

/-- The chain of addresses visited by a successful key-path walk: the start
address, each intermediate resolution, and the final result (`none` when the
walk fails). -/
def walkChain (h : Heap) (a : Addr) : List String → Option (List Addr)
  | [] => some [a]
  | k :: rest =>
    match get_value_for_key h a k with
    | .error _ => none
    | .ok b => (walkChain h b rest).map (fun t => a :: t)

/-- A successful walk chain is nonempty and starts at the start address. -/
lemma walkChain_cons_decompose : ∀ {h : Heap} {a : Addr} {ks : List String}
    {ch : List Addr}, walkChain h a ks = some ch → ∃ t, ch = a :: t := by
  intro h a ks ch hw
  cases ks with
  | nil =>
    simp [walkChain] at hw
    exact ⟨[], hw.symm⟩
  | cons k rest =>
    simp only [walkChain] at hw
    cases hg : get_value_for_key h a k with
    | error e => rw [hg] at hw; simp at hw
    | ok b =>
      rw [hg] at hw
      simp only [Option.map_eq_some'] at hw
      obtain ⟨t, _, ht⟩ := hw
      exact ⟨t, ht.symm⟩

/-- The walk succeeds with the final chain entry as its result. -/
lemma walkChain_getLast_walkKeys : ∀ {ks : List String} {h : Heap} {a : Addr}
    {ch : List Addr}, walkChain h a ks = some ch →
    walkKeys h a ks = .ok (ch.getLastD 0) := by
  intro ks
  induction ks with
  | nil =>
    intro h a ch hw
    simp [walkChain] at hw
    simp [walkKeys, ← hw, List.getLastD]
  | cons k rest ih =>
    intro h a ch hw
    simp only [walkChain] at hw
    cases hg : get_value_for_key h a k with
    | error e => rw [hg] at hw; simp at hw
    | ok b =>
      rw [hg] at hw
      simp only [Option.map_eq_some'] at hw
      obtain ⟨t, ht, hch⟩ := hw
      obtain ⟨t', ht'⟩ := walkChain_cons_decompose ht
      subst hch
      simp only [walkKeys, hg]
      rw [ih ht]
      subst ht'
      simp [List.getLastD]

/-- A successful walk yields a chain. -/
lemma walkKeys_ok_walkChain : ∀ {ks : List String} {h : Heap} {a b : Addr},
    walkKeys h a ks = .ok b →
    ∃ ch, walkChain h a ks = some ch ∧ ch.getLastD 0 = b := by
  intro ks
  induction ks with
  | nil =>
    intro h a b hw
    simp [walkKeys] at hw
    exact ⟨[a], by simp [walkChain], by simp [List.getLastD, hw]⟩
  | cons k rest ih =>
    intro h a b hw
    simp only [walkKeys] at hw
    cases hg : get_value_for_key h a k with
    | error e => rw [hg] at hw; simp at hw
    | ok c =>
      rw [hg] at hw
      obtain ⟨ch, hch, hlast⟩ := ih hw
      obtain ⟨t, ht⟩ := walkChain_cons_decompose hch
      refine ⟨a :: ch, ?_, ?_⟩
      · simp [walkChain, hg, hch]
      · subst ht
        simpa [List.getLastD] using hlast

/-- Every address the walk reads (all chain entries but the last) holds an
object in the heap. -/
lemma walkChain_reads : ∀ {ks : List String} {h : Heap} {a : Addr}
    {ch : List Addr}, walkChain h a ks = some ch →
    ∀ x ∈ ch.dropLast, ∃ o, heapGet h x = some o := by
  intro ks
  induction ks with
  | nil =>
    intro h a ch hw x hx
    simp [walkChain] at hw
    subst hw
    simp [List.dropLast] at hx
  | cons k rest ih =>
    intro h a ch hw x hx
    simp only [walkChain] at hw
    cases hg : get_value_for_key h a k with
    | error e => rw [hg] at hw; simp at hw
    | ok b =>
      rw [hg] at hw
      simp only [Option.map_eq_some'] at hw
      obtain ⟨t, ht, hch⟩ := hw
      subst hch
      obtain ⟨t', ht'⟩ := walkChain_cons_decompose ht
      subst ht'
      simp only [List.dropLast_cons₂, List.mem_cons] at hx
      rcases hx with hx | hx
      · subst hx
        cases ho : heapGet h x with
        | none => simp [get_value_for_key, ho] at hg
        | some o => exact ⟨o, rfl⟩
      · exact ih ht x hx

/-- Frame rule for walks: a heap agreeing on every address the walk reads
produces the same chain. -/
lemma walkChain_frame : ∀ {ks : List String} {h h' : Heap} {a : Addr}
    {ch : List Addr}, walkChain h a ks = some ch →
    (∀ x ∈ ch.dropLast, heapGet h' x = heapGet h x) →
    walkChain h' a ks = some ch := by
  intro ks
  induction ks with
  | nil =>
    intro h h' a ch hw _
    simpa [walkChain] using hw
  | cons k rest ih =>
    intro h h' a ch hw hfr
    simp only [walkChain] at hw ⊢
    cases hg : get_value_for_key h a k with
    | error e => rw [hg] at hw; simp at hw
    | ok b =>
      rw [hg] at hw
      simp only [Option.map_eq_some'] at hw
      obtain ⟨t, ht, hch⟩ := hw
      subst hch
      obtain ⟨t', ht'⟩ := walkChain_cons_decompose ht
      subst ht'
      have hread : heapGet h' a = heapGet h a := by
        apply hfr
        simp [List.dropLast_cons₂]
      have hg' : get_value_for_key h' a k = .ok b := by
        unfold get_value_for_key at hg ⊢
        rw [hread]
        exact hg
      rw [hg']
      have : walkChain h' b rest = some (b :: t') := by
        apply ih ht
        intro x hx
        apply hfr
        simp only [List.dropLast_cons₂, List.mem_cons]
        exact Or.inr hx
      simp [this]

/-- Splitting a walk over an appended segment list. -/
lemma walkKeys_append : ∀ (ks ks' : List String) (h : Heap) (a : Addr),
    walkKeys h a (ks ++ ks') =
      match walkKeys h a ks with
      | .error e => .error e
      | .ok b => walkKeys h b ks' := by
  intro ks
  induction ks with
  | nil => intro ks' h a; simp [walkKeys]
  | cons k rest ih =>
    intro ks' h a
    simp only [List.cons_append, walkKeys]
    cases hg : get_value_for_key h a k with
    | error e => rfl
    | ok b => exact ih ks' h b

/-- In a duplicate-free nonempty list the last entry does not occur earlier. -/
lemma nodup_getLastD_not_mem_dropLast : ∀ {l : List Addr}, l.Nodup → l ≠ [] →
    l.getLastD 0 ∉ l.dropLast := by
  intro l hnd hne
  have hdecomp := List.dropLast_append_getLast hne
  intro hmem
  have hlast : l.getLastD 0 = l.getLast hne := by
    rw [List.getLastD_eq_getLast?, List.getLast?_eq_getLast l hne]
    rfl
  have : ¬ (l.dropLast ++ [l.getLast hne]).Nodup := by
    simp only [List.nodup_append]
    intro hc
    exact hc.2.2 hmem (by rw [hlast]; exact List.mem_singleton_self _)
  rw [hdecomp] at this
  exact this hnd

/-- Evaluating `set_key_path_` when the prefix walk succeeds in a heap that
agrees with `h` on everything the walk reads: the write is a single
attribute assignment on the penultimate object. -/
lemma set_key_path_eval {h hPre : Heap} {model v pen : Addr} {lp : String}
    {iks : List String} {lk : String} {ch : List Addr} {oPre : PyObj}
    (hsplit : splitKeys lp = iks ++ [lk])
    (hch : walkChain h model iks = some ch)
    (hframe : ∀ x ∈ ch.dropLast, heapGet hPre x = heapGet h x)
    (hpen : ch.getLastD 0 = pen)
    (hoPre : heapGet hPre pen = some oPre) :
    set_key_path_ hPre model lp v =
      .ok (heapSet hPre pen { oPre with attrs := setAttrList oPre.attrs lk v }) := by
  have hch' := walkChain_frame hch hframe
  have hwk : walkKeys hPre model iks = .ok pen := by
    rw [walkChain_getLast_walkKeys hch', hpen]
  unfold set_key_path_
  rw [hsplit]
  simp only [List.dropLast_concat, List.getLastD_concat]
  rw [hwk]
  unfold setattrE
  simp only [hoPre]

/-- Resolution after the attribute write of `set_key_path_`: the prefix
still walks to the penultimate object (no-aliasing hypothesis `ch.Nodup`),
and the final segment reads the fresh attribute when it is not all-digit,
or the untouched item list when it is. -/
lemma get_key_path_after_set {h hPre : Heap} {model v pen : Addr}
    {lp : String} {iks : List String} {lk : String} {ch : List Addr}
    {oPre : PyObj}
    (hsplit : splitKeys lp = iks ++ [lk])
    (hch : walkChain h model iks = some ch)
    (hnd : ch.Nodup)
    (hframe : ∀ x ∈ ch.dropLast, heapGet hPre x = heapGet h x)
    (hpen : ch.getLastD 0 = pen)
    (hoPre : heapGet hPre pen = some oPre) :
    walkKeys (heapSet hPre pen { oPre with attrs := setAttrList oPre.attrs lk v })
        model iks = .ok pen ∧
    get_key_path (heapSet hPre pen { oPre with attrs := setAttrList oPre.attrs lk v })
        model lp =
      (if strIsDigit lk then
        match oPre.items.get? (strToNat lk) with
        | some v => .ok v
        | none => .error .indexError
       else .ok v) := by
  obtain ⟨t, hcons⟩ := walkChain_cons_decompose hch
  have hne : ch ≠ [] := by rw [hcons]; simp
  have hpennot : pen ∉ ch.dropLast := by
    rw [← hpen]
    exact nodup_getLastD_not_mem_dropLast hnd hne
  have hframeI : ∀ x ∈ ch.dropLast,
      heapGet (heapSet hPre pen { oPre with attrs := setAttrList oPre.attrs lk v }) x =
        heapGet h x := by
    intro x hx
    rw [heapGet_set_ne (fun hxp => hpennot (by rw [← hxp]; exact hx))]
    exact hframe x hx
  have hchI := walkChain_frame hch hframeI
  have hwkI : walkKeys (heapSet hPre pen { oPre with attrs := setAttrList oPre.attrs lk v })
      model iks = .ok pen := by
    rw [walkChain_getLast_walkKeys hchI, hpen]
  refine ⟨hwkI, ?_⟩
  unfold get_key_path
  rw [hsplit, walkKeys_append, hwkI]
  have hgetI : heapGet (heapSet hPre pen { oPre with attrs := setAttrList oPre.attrs lk v })
      pen = some { oPre with attrs := setAttrList oPre.attrs lk v } :=
    heapGet_set_self hoPre
  simp only [walkKeys, get_value_for_key, hgetI]
  by_cases hd : strIsDigit lk
  · simp only [hd, if_true]
    cases oPre.items.get? (strToNat lk) with
    | none => rfl
    | some v => rfl
  · simp only [hd, if_false, Bool.false_eq_true, lookupAttr_setAttrList_self]

/-- Install step shared by the scoped operations: writing a value at a
name-final key path whose prefix chain is duplicate-free succeeds, resolves
to the written value, and changes only the penultimate object. -/
lemma scoped_install {h g : Heap} {model v pen : Addr} {lp : String}
    {iks : List String} {lk : String} {ch : List Addr} {oPre : PyObj}
    (hsplit : splitKeys lp = iks ++ [lk])
    (hdig : strIsDigit lk = false)
    (hch : walkChain h model iks = some ch)
    (hnd : ch.Nodup)
    (hframe : ∀ x ∈ ch.dropLast, heapGet g x = heapGet h x)
    (hpen : ch.getLastD 0 = pen)
    (hoPre : heapGet g pen = some oPre) :
    ∃ hI, set_key_path_ g model lp v = .ok hI ∧
      get_key_path hI model lp = .ok v ∧
      heapGet hI pen = some { oPre with attrs := setAttrList oPre.attrs lk v } ∧
      (∀ x, x ≠ pen → heapGet hI x = heapGet g x) := by
  refine ⟨heapSet g pen { oPre with attrs := setAttrList oPre.attrs lk v },
    set_key_path_eval hsplit hch hframe hpen hoPre, ?_, heapGet_set_self hoPre,
    fun x hx => heapGet_set_ne hx⟩
  have := (get_key_path_after_set (v := v) hsplit hch hnd hframe hpen hoPre).2
  rw [this, hdig]
  simp

/-- Restore step shared by the scoped operations: writing back the original
value at the key path, from any heap that agrees with the pre-entry heap on
the prefix chain and preserves the penultimate object's item list, succeeds
and makes the path resolve to the original value again. -/
lemma scoped_restore {h g : Heap} {model old pen : Addr} {lp : String}
    {iks : List String} {lk : String} {ch : List Addr} {oH oB : PyObj}
    (hsplit : splitKeys lp = iks ++ [lk])
    (hch : walkChain h model iks = some ch)
    (hnd : ch.Nodup)
    (hpen : ch.getLastD 0 = pen)
    (hframe : ∀ x ∈ ch.dropLast, heapGet g x = heapGet h x)
    (hoH : heapGet h pen = some oH)
    (hoB : heapGet g pen = some oB)
    (hitems : oB.items = oH.items)
    (hres : get_key_path h model lp = .ok old) :
    ∃ hF, set_key_path_ g model lp old = .ok hF ∧
      get_key_path hF model lp = .ok old ∧
      (∀ x, x ≠ pen → heapGet hF x = heapGet g x) := by
  refine ⟨heapSet g pen { oB with attrs := setAttrList oB.attrs lk old },
    set_key_path_eval hsplit hch hframe hpen hoB, ?_, fun x hx => heapGet_set_ne hx⟩
  have hafter := (get_key_path_after_set (v := old) hsplit hch hnd hframe hpen hoB).2
  rw [hafter]
  by_cases hd : strIsDigit lk
  · simp only [hd, if_true]
    have hwk : walkKeys h model iks = .ok pen := by
      rw [walkChain_getLast_walkKeys hch, hpen]
    unfold get_key_path at hres
    rw [hsplit, walkKeys_append, hwk] at hres
    simp only [walkKeys, get_value_for_key, hoH, hd, if_true] at hres
    rw [hitems]
    cases hv : oH.items.get? (strToNat lk) with
    | none => rw [hv] at hres; simp at hres
    | some v =>
      rw [hv] at hres
      simpa using hres
  · simp [hd]

/-- A nonnegative in-range index normalises to itself. -/
lemma pyNorm_nonneg {len : Nat} {i : Int} (h0 : 0 ≤ i) (hl : i < (len : Int)) :
    pyNorm len i = some i.toNat := by
  have hneg : ¬ i < 0 := by omega
  simp [pyNorm, hneg, h0, hl]

/-- A negative in-range index normalises to the length plus the index. -/
lemma pyNorm_neg {len : Nat} {i : Int} (hn : i < 0) (hl : -(len : Int) ≤ i) :
    pyNorm len i = some (i + len).toNat := by
  have h1 : (0 : Int) ≤ i + len := by omega
  have h2 : i + (len : Int) < len := by omega
  simp [pyNorm, hn, h1, h2]

/-- A successfully normalised index is strictly below the length, and the
raw index was in Python's accepted range. -/
lemma pyNorm_some_bounds {len : Nat} {i : Int} {j : Nat}
    (h : pyNorm len i = some j) :
    j < len ∧ -(len : Int) ≤ i ∧ i < (len : Int) := by
  simp only [pyNorm] at h
  by_cases hn : i < 0
  · rw [if_pos hn] at h
    split_ifs at h with hc
    injection h with hj
    omega
  · rw [if_neg hn] at h
    split_ifs at h with hc
    injection h with hj
    omega

/-- An index outside Python's accepted range fails to normalise. -/
lemma pyNorm_oob {len : Nat} {i : Int} (h : (len : Int) ≤ i ∨ i < -(len : Int)) :
    pyNorm len i = none := by
  simp only [pyNorm]
  by_cases hn : i < 0
  · rw [if_pos hn, if_neg (by omega : ¬ ((0 : Int) ≤ i + len ∧ i + (len : Int) < len))]
  · rw [if_neg hn, if_neg (by omega : ¬ ((0 : Int) ≤ i ∧ i < (len : Int)))]

/-- The comprehension of `permute_layers` succeeds when every index is in
range, has one entry per index, and selects the addressed items. -/
lemma buildPermuted_ok : ∀ {idxs : List Int} {t : List Addr},
    (∀ i ∈ idxs, pyNorm t.length i ≠ none) →
    ∃ l, buildPermuted t idxs = .ok l ∧ l.length = idxs.length ∧
      ∀ k i j, idxs.get? k = some i → pyNorm t.length i = some j →
        l.get? k = t.get? j := by
  intro idxs
  induction idxs with
  | nil =>
    intro t _
    exact ⟨[], rfl, rfl, by intro k i j hk _; simp at hk⟩
  | cons i0 rest ih =>
    intro t hin
    obtain ⟨j0, hj0⟩ : ∃ j, pyNorm t.length i0 = some j := by
      cases hp : pyNorm t.length i0 with
      | none => exact absurd hp (hin i0 (by simp))
      | some j => exact ⟨j, rfl⟩
    have hj0lt := (pyNorm_some_bounds hj0).1
    obtain ⟨a0, ha0⟩ : ∃ a, t.get? j0 = some a := by
      cases hg : t.get? j0 with
      | none => exact absurd (List.get?_eq_none.mp hg) (by omega)
      | some a => exact ⟨a, rfl⟩
    obtain ⟨l, hl, hlen, hpt⟩ := ih (fun i hi => hin i (by simp [hi]))
    refine ⟨a0 :: l, ?_, by simp [hlen], ?_⟩
    · simp only [buildPermuted, hj0, ha0, hl]
    · intro k i j hk hj
      cases k with
      | zero =>
        simp only [List.get?] at hk
        cases hk
        rw [hj0] at hj
        cases hj
        simpa using ha0.symm
      | succ k' =>
        simp only [List.get?] at hk ⊢
        exact hpt k' i j hk hj

/-- The comprehension of `permute_layers` raises `IndexError` as soon as
some index is out of range. -/
lemma buildPermuted_oob : ∀ {idxs : List Int} {t : List Addr},
    (∃ i ∈ idxs, pyNorm t.length i = none) →
    buildPermuted t idxs = .error .indexError := by
  intro idxs
  induction idxs with
  | nil => intro t h; simp at h
  | cons i0 rest ih =>
    intro t h
    cases hp : pyNorm t.length i0 with
    | none => simp [buildPermuted, hp]
    | some j =>
      obtain ⟨i, hi, hnone⟩ := h
      rcases List.mem_cons.mp hi with hii | hii
      · subst hii
        rw [hp] at hnone
        cases hnone
      · have hj := (pyNorm_some_bounds hp).1
        obtain ⟨a, ha⟩ : ∃ a, t.get? j = some a := by
          cases hg : t.get? j with
          | none => exact absurd (List.get?_eq_none.mp hg) (by omega)
          | some a => exact ⟨a, rfl⟩
        simp only [buildPermuted, hp, ha, ih ⟨i, hii, hnone⟩]

/-- The deletion loop touches only the `ModuleList` it mutates. -/
lemma delDescend_frame : ∀ {l : List Int} {h : Heap} {m x : Addr},
    x ≠ m → heapGet (delDescend h m l).2 x = heapGet h x := by
  intro l
  induction l with
  | nil => intro h m x _; rfl
  | cons i rest ih =>
    intro h m x hx
    cases hg : heapGet h m with
    | none => simp only [delDescend, hg]
    | some o =>
      cases hp : pyNorm o.items.length i with
      | none => simp only [delDescend, hg, hp]
      | some j =>
        simp only [delDescend, hg, hp]
        rw [ih hx, heapGet_set_ne hx]

/-- Pure view of the deletion loop: the code's fold of `eraseIdx` over the
(already nonnegative) indices, after `toNat` conversion. -/
def eraseAllInt : List Addr → List Int → List Addr
  | l, [] => l
  | l, i :: rest => eraseAllInt (l.eraseIdx i.toNat) rest

/-- On strictly descending nonnegative in-range indices the deletion loop
succeeds and performs the pure `eraseIdx` fold on the list object. -/
lemma delDescend_ok_pure : ∀ {idxs : List Int} {h : Heap} {m : Addr} {o : PyObj},
    heapGet h m = some o → List.Pairwise (fun a b => a > b) idxs →
    (∀ i ∈ idxs, 0 ≤ i ∧ i < (o.items.length : Int)) →
    delDescend h m idxs =
      (.ok (), heapSet h m { o with items := eraseAllInt o.items idxs }) := by
  intro idxs
  induction idxs with
  | nil =>
    intro h m o hg _ _
    simp [delDescend, eraseAllInt, heapSet_same hg]
  | cons i0 rest ih =>
    intro h m o hg hpw hin
    have h0 := hin i0 (by simp)
    have hp : pyNorm o.items.length i0 = some i0.toNat :=
      pyNorm_nonneg h0.1 h0.2
    have hlen : (o.items.eraseIdx i0.toNat).length = o.items.length - 1 := by
      rw [List.length_eraseIdx]
      simp only [if_pos (by omega : i0.toNat < o.items.length)]
    have hrest : ∀ i ∈ rest, 0 ≤ i ∧ i < ((o.items.eraseIdx i0.toNat).length : Int) := by
      intro i hi
      have hlt := (List.pairwise_cons.mp hpw).1 i hi
      have := hin i (by simp [hi])
      rw [hlen]
      omega
    have hg' : heapGet (heapSet h m { o with items := o.items.eraseIdx i0.toNat }) m =
        some { o with items := o.items.eraseIdx i0.toNat } := heapGet_set_self hg
    simp only [delDescend, hg, hp]
    rw [ih hg' (List.pairwise_cons.mp hpw).2 hrest]
    simp only [eraseAllInt]
    rw [show heapSet (heapSet h m { o with items := o.items.eraseIdx i0.toNat }) m
          { o with items := eraseAllInt (o.items.eraseIdx i0.toNat) rest } =
        heapSet h m { o with items := eraseAllInt (o.items.eraseIdx i0.toNat) rest } from
      List.set_set _ _ _ _]

/-- If some raw index lies outside the range of the original list, the
deletion loop fails with `IndexError` (the list only shrinks, so the bound
stays valid as earlier deletions are processed). -/
lemma delDescend_oob : ∀ {idxs : List Int} {h : Heap} {ml : Addr} {o : PyObj}
    {n : Nat}, heapGet h ml = some o → o.items.length ≤ n →
    (∃ i ∈ idxs, (n : Int) ≤ i ∨ i < -(n : Int)) →
    (delDescend h ml idxs).1 = .error .indexError := by
  intro idxs
  induction idxs with
  | nil => intro h ml o n _ _ hex; simp at hex
  | cons i0 rest ih =>
    intro h ml o n hg hle hex
    simp only [delDescend, hg]
    cases hp : pyNorm o.items.length i0 with
    | none => rfl
    | some j =>
      have hb := (pyNorm_some_bounds hp).2
      obtain ⟨i, hi, hoob⟩ := hex
      rcases List.mem_cons.mp hi with hii | hii
      · subst hii
        omega
      · have hg' := heapGet_set_self (q := { o with items := o.items.eraseIdx j }) hg
        have hle' : ({ o with items := o.items.eraseIdx j } : PyObj).items.length ≤ n := by
          simp only []
          rw [List.length_eraseIdx]
          split_ifs <;> omega
        exact ih hg' hle' ⟨i, hii, hoob⟩

/-- The assignment loop of `replace_layers` touches only the `ModuleList`
it mutates. -/
lemma setItemsH_frame : ∀ {l : List (Int × Addr)} {h : Heap} {m x : Addr},
    x ≠ m → heapGet (setItemsH h m l).2 x = heapGet h x := by
  intro l
  induction l with
  | nil => intro h m x _; rfl
  | cons p rest ih =>
    intro h m x hx
    obtain ⟨i, r⟩ := p
    cases hg : heapGet h m with
    | none => simp only [setItemsH, hg]
    | some o =>
      cases hp : pyNorm o.items.length i with
      | none => simp only [setItemsH, hg, hp]
      | some j =>
        simp only [setItemsH, hg, hp]
        rw [ih hx, heapGet_set_ne hx]

/-- Pure view of the assignment loop: fold of `List.set` over the zipped
pairs (indices already normalised by `toNat` for nonnegative indices). -/
def setAllInt : List Addr → List (Int × Addr) → List Addr
  | l, [] => l
  | l, (i, r) :: rest => setAllInt (l.set i.toNat r) rest

/-- On nonnegative in-range indices the assignment loop succeeds and
performs the pure `List.set` fold on the list object. -/
lemma setItemsH_ok_pure : ∀ {pairs : List (Int × Addr)} {h : Heap} {m : Addr}
    {o : PyObj}, heapGet h m = some o →
    (∀ p ∈ pairs, 0 ≤ p.1 ∧ p.1 < (o.items.length : Int)) →
    setItemsH h m pairs =
      (.ok (), heapSet h m { o with items := setAllInt o.items pairs }) := by
  intro pairs
  induction pairs with
  | nil =>
    intro h m o hg _
    simp [setItemsH, setAllInt, heapSet_same hg]
  | cons p rest ih =>
    intro h m o hg hin
    obtain ⟨i, r⟩ := p
    have h0 := hin (i, r) (by simp)
    have hp : pyNorm o.items.length i = some i.toNat := pyNorm_nonneg h0.1 h0.2
    have hg' : heapGet (heapSet h m { o with items := o.items.set i.toNat r }) m =
        some { o with items := o.items.set i.toNat r } := heapGet_set_self hg
    have hrest : ∀ q ∈ rest, 0 ≤ q.1 ∧
        q.1 < ((( { o with items := o.items.set i.toNat r } : PyObj).items.length : Nat) : Int) := by
      intro q hq
      have := hin q (by simp [hq])
      simp only [List.length_set]
      exact this
    simp only [setItemsH, hg, hp]
    rw [ih hg' hrest]
    simp only [setAllInt]
    rw [show heapSet (heapSet h m { o with items := o.items.set i.toNat r }) m
          { o with items := setAllInt (o.items.set i.toNat r) rest } =
        heapSet h m { o with items := setAllInt (o.items.set i.toNat r) rest } from
      List.set_set _ _ _ _]

/-- If some zipped pair's index is out of range, the assignment loop fails
with `IndexError` (assignments preserve the length). -/
lemma setItemsH_oob : ∀ {pairs : List (Int × Addr)} {h : Heap} {ml : Addr}
    {o : PyObj} {n : Nat}, heapGet h ml = some o → o.items.length = n →
    (∃ p ∈ pairs, (n : Int) ≤ p.1 ∨ p.1 < -(n : Int)) →
    (setItemsH h ml pairs).1 = .error .indexError := by
  intro pairs
  induction pairs with
  | nil => intro h ml o n _ _ hex; simp at hex
  | cons p rest ih =>
    intro h ml o n hg hlen hex
    obtain ⟨i, r⟩ := p
    simp only [setItemsH, hg]
    cases hp : pyNorm o.items.length i with
    | none => rfl
    | some j =>
      have hb := (pyNorm_some_bounds hp).2
      obtain ⟨q, hq, hoob⟩ := hex
      rcases List.mem_cons.mp hq with hqq | hqq
      · subst hqq
        simp only [] at hoob
        omega
      · have hg' := heapGet_set_self (q := { o with items := o.items.set j r }) hg
        have hlen' : ({ o with items := o.items.set j r } : PyObj).items.length = n := by
          simp only [List.length_set]
          exact hlen
        exact ih hg' hlen' ⟨q, hqq, hoob⟩

/-- When every listed index lies strictly below the current position the
filter keeps the whole list. -/
lemma keepNotListed_none : ∀ {l : List Addr} {js : List Int} {pos : Nat},
    (∀ r ∈ js, r < (pos : Int)) → keepNotListed js l pos = l := by
  intro l
  induction l with
  | nil => intro js pos _; rfl
  | cons x xs ih =>
    intro js pos hlt
    have hnm : ((pos : Int) ∉ js) := fun hm => by
      have := hlt _ hm
      omega
    simp only [keepNotListed]
    rw [if_neg hnm, ih (fun r hr => by have := hlt r hr; omega)]

/-- Erasing the largest listed position commutes with filtering the
remaining (strictly smaller) positions. -/
lemma keepNotListed_erase : ∀ (l : List Addr) (j : Int) (js : List Int)
    (pos : Nat), (∀ r ∈ js, r < j) → (pos : Int) ≤ j →
    j < (pos : Int) + l.length →
    keepNotListed js (l.eraseIdx (j - pos).toNat) pos =
      keepNotListed (j :: js) l pos := by
  intro l
  induction l with
  | nil =>
    intro j js pos _ h1 h2
    simp at h2
    omega
  | cons x xs ih =>
    intro j js pos hlt h1 h2
    by_cases hpj : (pos : Int) = j
    · have hz : (j - pos).toNat = 0 := by omega
      rw [hz]
      show keepNotListed js xs pos = keepNotListed (j :: js) (x :: xs) pos
      have hmem : (pos : Int) ∈ j :: js := by
        rw [hpj]
        exact List.mem_cons_self _ _
      have hrhs : keepNotListed (j :: js) (x :: xs) pos =
          keepNotListed (j :: js) xs (pos + 1) := by
        simp only [keepNotListed]
        rw [if_pos hmem]
      rw [hrhs, keepNotListed_none (fun r hr => by have := hlt r hr; omega),
        keepNotListed_none]
      intro r hr
      rcases List.mem_cons.mp hr with hr | hr
      · omega
      · have := hlt r hr
        omega
    · have hs : (j - pos).toNat = (j - ((pos + 1 : Nat) : Int)).toNat + 1 := by
        push_cast
        omega
      rw [hs]
      show keepNotListed js (x :: xs.eraseIdx (j - ((pos + 1 : Nat) : Int)).toNat) pos =
        keepNotListed (j :: js) (x :: xs) pos
      have hple : ((pos + 1 : Nat) : Int) ≤ j := by push_cast; omega
      have hlt2 : j < ((pos + 1 : Nat) : Int) + xs.length := by
        have hlc : (((x :: xs).length : Nat) : Int) = (xs.length : Int) + 1 := by
          simp
        push_cast
        omega
      have hrec := ih j js (pos + 1) hlt hple hlt2
      by_cases hm : (pos : Int) ∈ js
      · simp only [keepNotListed]
        rw [if_pos hm, if_pos (List.mem_cons.mpr (Or.inr hm)), hrec]
      · simp only [keepNotListed]
        rw [if_neg hm, if_neg (fun hmm => by
          rcases List.mem_cons.mp hmm with he | he
          · exact hpj he
          · exact hm he), hrec]

/-- On strictly descending in-range indices the `eraseIdx` fold equals the
positional filter that drops exactly the listed positions. -/
lemma eraseAllInt_eq_keep : ∀ {js : List Int} {l : List Addr},
    List.Pairwise (fun a b => a > b) js →
    (∀ i ∈ js, 0 ≤ i ∧ i < (l.length : Int)) →
    eraseAllInt l js = keepNotListed js l 0 := by
  intro js
  induction js with
  | nil =>
    intro l _ _
    rw [show eraseAllInt l [] = l from rfl, keepNotListed_none (by simp)]
  | cons j0 rest ih =>
    intro l hpw hin
    have h0 := hin j0 (by simp)
    have hlen : (l.eraseIdx j0.toNat).length = l.length - 1 := by
      rw [List.length_eraseIdx]
      simp only [if_pos (by omega : j0.toNat < l.length)]
    have hrest : ∀ i ∈ rest, 0 ≤ i ∧ i < ((l.eraseIdx j0.toNat).length : Int) := by
      intro i hi
      have hlt := (List.pairwise_cons.mp hpw).1 i hi
      have := hin i (by simp [hi])
      rw [hlen]
      omega
    show eraseAllInt (l.eraseIdx j0.toNat) rest = keepNotListed (j0 :: rest) l 0
    rw [ih (List.pairwise_cons.mp hpw).2 hrest]
    have := keepNotListed_erase l j0 rest 0 (List.pairwise_cons.mp hpw).1
      (by omega) (by push_cast; omega)
    simpa using this

/-- The positional filter only depends on which positions are listed. -/
lemma keepNotListed_congr : ∀ {l : List Addr} {js js' : List Int} {pos : Nat},
    (∀ p : Nat, ((p : Int) ∈ js ↔ (p : Int) ∈ js')) →
    keepNotListed js l pos = keepNotListed js' l pos := by
  intro l
  induction l with
  | nil => intro js js' pos _; rfl
  | cons x xs ih =>
    intro js js' pos hiff
    simp only [keepNotListed]
    by_cases hm : (pos : Int) ∈ js
    · rw [if_pos hm, if_pos ((hiff pos).mp hm), ih hiff]
    · rw [if_neg hm, if_neg (fun hc => hm ((hiff pos).mpr hc)), ih hiff]

/-- `sorted(indices, reverse=True)` is a permutation of the input. -/
lemma sortedDesc_perm (l : List Int) : (sortedDesc l).Perm l :=
  List.perm_insertionSort _ l

/-- On duplicate-free input the descending sort is strictly descending. -/
lemma sortedDesc_pairwise_gt {l : List Int} (hnd : l.Nodup) :
    List.Pairwise (fun a b => a > b) (sortedDesc l) := by
  haveI ht : IsTotal Int (fun a b => b ≤ a) := ⟨fun a b => (le_total b a).imp id id⟩
  haveI htr : IsTrans Int (fun a b => b ≤ a) :=
    ⟨fun a b c hab hbc => le_trans hbc hab⟩
  have hs : List.Sorted (fun a b => b ≤ a) (sortedDesc l) :=
    List.sorted_insertionSort _ l
  have hnd' : (sortedDesc l).Nodup := ((sortedDesc_perm l).nodup_iff).mpr hnd
  exact (List.Pairwise.and hs hnd').imp
    (fun hab => lt_of_le_of_ne hab.1 (fun he => hab.2 he.symm))

/-- The `List.set` fold preserves the length. -/
lemma setAllInt_length : ∀ {pairs : List (Int × Addr)} {l : List Addr},
    (setAllInt l pairs).length = l.length := by
  intro pairs
  induction pairs with
  | nil => intro l; rfl
  | cons p rest ih =>
    intro l
    obtain ⟨i, r⟩ := p
    show (setAllInt (l.set i.toNat r) rest).length = l.length
    rw [ih, List.length_set]

/-- Positions not assigned by any pair keep their original entry. -/
lemma setAllInt_not_mem : ∀ {pairs : List (Int × Addr)} {l : List Addr}
    {j : Nat}, (∀ p ∈ pairs, p.1.toNat ≠ j) →
    (setAllInt l pairs).get? j = l.get? j := by
  intro pairs
  induction pairs with
  | nil => intro l j _; rfl
  | cons p rest ih =>
    intro l j hne
    obtain ⟨i, r⟩ := p
    show (setAllInt (l.set i.toNat r) rest).get? j = l.get? j
    rw [ih (fun q hq => hne q (by simp [hq])),
      List.get?_set_ne r l (hne (i, r) (by simp))]

/-- With pairwise-distinct normalised indices each assigned position holds
its pair's replacement. -/
lemma setAllInt_get : ∀ {pairs : List (Int × Addr)} {l : List Addr} {k : Nat}
    {i : Int} {r : Addr},
    List.Pairwise (fun p q => p.1.toNat ≠ q.1.toNat) pairs →
    (∀ p ∈ pairs, p.1.toNat < l.length) →
    pairs.get? k = some (i, r) →
    (setAllInt l pairs).get? i.toNat = some r := by
  intro pairs
  induction pairs with
  | nil => intro l k i r _ _ hk; simp at hk
  | cons p rest ih =>
    intro l k i r hpw hlt hk
    obtain ⟨i0, r0⟩ := p
    cases k with
    | zero =>
      simp only [List.get?] at hk
      cases hk
      show (setAllInt (l.set i.toNat r) rest).get? i.toNat = some r
      rw [setAllInt_not_mem (fun q hq =>
        ((List.pairwise_cons.mp hpw).1 q hq).symm)]
      exact List.get?_set_eq_of_lt r (by
        have := hlt (i, r) (by simp)
        simpa [List.length_set] using this)
    | succ k' =>
      simp only [List.get?] at hk
      show (setAllInt (l.set i0.toNat r0) rest).get? i.toNat = some r
      exact ih (List.pairwise_cons.mp hpw).2
        (fun q hq => by
          rw [List.length_set]
          exact hlt q (by simp [hq])) hk

/-- Frame rule for a whole successful walk: only addresses inside the
original heap are read, so any heap agreeing there gives the same result. -/
lemma walkKeys_frame_ok : ∀ {ks : List String} {h h' : Heap} {a v : Addr},
    walkKeys h a ks = .ok v →
    (∀ x, x < h.length → heapGet h' x = heapGet h x) →
    walkKeys h' a ks = .ok v := by
  intro ks
  induction ks with
  | nil => intro h h' a v hw _; exact hw
  | cons k rest ih =>
    intro h h' a v hw hfr
    simp only [walkKeys] at hw ⊢
    cases hg : get_value_for_key h a k with
    | error e => rw [hg] at hw; simp at hw
    | ok b =>
      rw [hg] at hw
      obtain ⟨o, ho⟩ : ∃ o, heapGet h a = some o := by
        unfold get_value_for_key at hg
        cases ho : heapGet h a with
        | none => rw [ho] at hg; cases hg
        | some o => exact ⟨o, rfl⟩
      have hg' : get_value_for_key h' a k = .ok b := by
        unfold get_value_for_key at hg ⊢
        rw [hfr a (heapGet_lt ho)]
        exact hg
      rw [hg']
      exact ih hw hfr

/-- Frame rule for `get_key_path` on successful resolution. -/
lemma get_key_path_frame_ok {h h' : Heap} {a v : Addr} {lp : String}
    (hres : get_key_path h a lp = .ok v)
    (hfr : ∀ x, x < h.length → heapGet h' x = heapGet h x) :
    get_key_path h' a lp = .ok v :=
  walkKeys_frame_ok hres hfr

/-- Membership is stable under the descending sort. -/
lemma mem_sortedDesc {i : Int} {l : List Int} : i ∈ sortedDesc l ↔ i ∈ l :=
  (sortedDesc_perm l).mem_iff

/-- A successful layer-list location means the returned path resolves to the
returned address. -/
lemma get_transformer_layers_resolves {h : Heap} {model ll : Addr} {lp : String}
    (hgtl : get_transformer_layers h model = .ok (lp, ll)) :
    get_key_path h model lp = .ok ll := by
  unfold get_transformer_layers at hgtl
  split at hgtl
  · cases hgtl
  split at hgtl
  · cases hgtl
  split at hgtl
  · cases hgtl
  split at hgtl
  · cases hgtl
  simp only [] at hgtl
  split at hgtl
  · cases hgtl
  rename_i heq
  injection hgtl with hp
  injection hp with h1 h2
  rw [h1, h2] at heq
  exact heq

/-- Full run of `delete_layers` with in-range, strictly-descending-after-sort
indices and a heap-preserving body: the scope installs the erased copy at a
fresh address, the body sees it, and the exit restores the original list's
resolution while the body's outcome passes through. -/
lemma delete_layers_run {α : Type} {h : Heap} {model ll pen : Addr}
    {lp : String} {iks : List String} {lk : String} {ch : List Addr}
    {llo oPen : PyObj} {indices : List Int} {newItems : List Addr}
    {b : Heap → Except Err α × Heap}
    (hgtl : get_transformer_layers h model = .ok (lp, ll))
    (hsplit : splitKeys lp = iks ++ [lk])
    (hdig : strIsDigit lk = false)
    (hch : walkChain h model iks = some ch)
    (hnd : ch.Nodup)
    (hpen : ch.getLastD 0 = pen)
    (hllo : heapGet h ll = some llo)
    (hpenObj : heapGet h pen = some oPen)
    (hdel : delDescend (h ++ [(⟨PyClass.moduleList, [], llo.items⟩ : PyObj)])
        h.length (sortedDesc indices) =
      (.ok (), heapSet (h ++ [(⟨PyClass.moduleList, [], llo.items⟩ : PyObj)]) h.length
        (⟨PyClass.moduleList, [], newItems⟩ : PyObj)))
    (hb : ∀ hh, (b hh).2 = hh) :
    ∃ hI hF, delete_layers h model indices b = ((b hI).1, hF) ∧
      heapGet hI h.length =
        some { cls := .moduleList, attrs := [], items := newItems } ∧
      get_key_path hI model lp = .ok h.length ∧
      (∀ x, x < h.length → x ≠ pen → heapGet hI x = heapGet h x) ∧
      get_key_path hF model lp = .ok ll ∧
      (∀ x, x < h.length → x ≠ pen → heapGet hF x = heapGet h x) := by
  have hpenlt : pen < h.length := heapGet_lt hpenObj
  have hreadlt : ∀ x ∈ ch.dropLast, x < h.length := fun x hx => by
    obtain ⟨o, ho⟩ := walkChain_reads hch x hx
    exact heapGet_lt ho
  have hchne : ch ≠ [] := by
    obtain ⟨t, ht⟩ := walkChain_cons_decompose hch
    rw [ht]
    simp
  have hpennot : pen ∉ ch.dropLast := by
    rw [← hpen]
    exact nodup_getLastD_not_mem_dropLast hnd hchne
  have hml1 : heapGet (h ++ [(⟨PyClass.moduleList, [], llo.items⟩ : PyObj)]) h.length =
      some (⟨PyClass.moduleList, [], llo.items⟩ : PyObj) := heapGet_alloc_self _ _
  have hfr1 : ∀ x, x < h.length →
      heapGet (h ++ [(⟨PyClass.moduleList, [], llo.items⟩ : PyObj)]) x = heapGet h x :=
    fun x hx => heapGet_append hx
  have hfr2 : ∀ x, x < h.length →
      heapGet (heapSet (h ++ [(⟨PyClass.moduleList, [], llo.items⟩ : PyObj)]) h.length
        (⟨PyClass.moduleList, [], newItems⟩ : PyObj)) x =
      heapGet h x := fun x hx => by
    rw [heapGet_set_ne (by omega : x ≠ h.length)]
    exact hfr1 x hx
  have hml2 : heapGet (heapSet (h ++ [(⟨PyClass.moduleList, [], llo.items⟩ : PyObj)]) h.length
        (⟨PyClass.moduleList, [], newItems⟩ : PyObj)) h.length =
      some (⟨PyClass.moduleList, [], newItems⟩ : PyObj) :=
    heapGet_set_self hml1
  obtain ⟨hI, hinst, hIres, hIpen, hIfr⟩ := scoped_install (h := h)
    (g := heapSet (h ++ [(⟨PyClass.moduleList, [], llo.items⟩ : PyObj)]) h.length
      (⟨PyClass.moduleList, [], newItems⟩ : PyObj))
    (v := h.length) hsplit hdig hch hnd
    (fun x hx => hfr2 x (hreadlt x hx)) hpen
    (by rw [hfr2 pen hpenlt]; exact hpenObj)
  have hIml : heapGet hI h.length =
      some (⟨PyClass.moduleList, [], newItems⟩ : PyObj) := by
    rw [hIfr h.length ((Nat.ne_of_lt hpenlt).symm)]
    exact hml2
  have hIold : ∀ x, x < h.length → x ≠ pen → heapGet hI x = heapGet h x := by
    intro x hx hxpen
    rw [hIfr x hxpen]
    exact hfr2 x hx
  obtain ⟨hF, hrest, hFres, hFfr⟩ := scoped_restore (h := h) (g := hI)
    hsplit hch hnd hpen
    (fun x hx => hIold x (hreadlt x hx) (fun hxp => hpennot (hxp ▸ hx)))
    hpenObj hIpen rfl (get_transformer_layers_resolves hgtl)
  refine ⟨hI, hF, ?_, hIml, hIres, hIold, hFres, ?_⟩
  · simp only [delete_layers, hgtl, hllo, alloc]
    rw [hdel]
    simp only []
    rw [hinst]
    simp only []
    rw [hb hI, hrest]
  · intro x hx hxpen
    rw [hFfr x hxpen]
    exact hIold x hx hxpen

/-- Full run of `permute_layers` when the selection succeeds and the body
preserves the heap: the scope installs the selected sequence at a fresh
address and the exit restores the original list's resolution. -/
lemma permute_layers_run {α : Type} {h : Heap} {model ll pen : Addr}
    {lp : String} {iks : List String} {lk : String} {ch : List Addr}
    {llo oPen : PyObj} {indices : List Int} {sel : List Addr}
    {b : Heap → Except Err α × Heap}
    (hgtl : get_transformer_layers h model = .ok (lp, ll))
    (hsplit : splitKeys lp = iks ++ [lk])
    (hdig : strIsDigit lk = false)
    (hch : walkChain h model iks = some ch)
    (hnd : ch.Nodup)
    (hpen : ch.getLastD 0 = pen)
    (hllo : heapGet h ll = some llo)
    (hpenObj : heapGet h pen = some oPen)
    (hsel : buildPermuted llo.items indices = .ok sel)
    (hb : ∀ hh, (b hh).2 = hh) :
    ∃ hI hF, permute_layers h model indices b = ((b hI).1, hF) ∧
      heapGet hI h.length = some (⟨PyClass.moduleList, [], sel⟩ : PyObj) ∧
      get_key_path hI model lp = .ok h.length ∧
      (∀ x, x < h.length → x ≠ pen → heapGet hI x = heapGet h x) ∧
      get_key_path hF model lp = .ok ll ∧
      (∀ x, x < h.length → x ≠ pen → heapGet hF x = heapGet h x) := by
  have hpenlt : pen < h.length := heapGet_lt hpenObj
  have hreadlt : ∀ x ∈ ch.dropLast, x < h.length := fun x hx => by
    obtain ⟨o, ho⟩ := walkChain_reads hch x hx
    exact heapGet_lt ho
  have hchne : ch ≠ [] := by
    obtain ⟨t, ht⟩ := walkChain_cons_decompose hch
    rw [ht]
    simp
  have hpennot : pen ∉ ch.dropLast := by
    rw [← hpen]
    exact nodup_getLastD_not_mem_dropLast hnd hchne
  have hml1 : heapGet (h ++ [(⟨PyClass.moduleList, [], sel⟩ : PyObj)]) h.length =
      some (⟨PyClass.moduleList, [], sel⟩ : PyObj) := heapGet_alloc_self _ _
  have hfr1 : ∀ x, x < h.length →
      heapGet (h ++ [(⟨PyClass.moduleList, [], sel⟩ : PyObj)]) x = heapGet h x :=
    fun x hx => heapGet_append hx
  obtain ⟨hI, hinst, hIres, hIpen, hIfr⟩ := scoped_install (h := h)
    (g := h ++ [(⟨PyClass.moduleList, [], sel⟩ : PyObj)])
    (v := h.length) hsplit hdig hch hnd
    (fun x hx => hfr1 x (hreadlt x hx)) hpen
    (by rw [hfr1 pen hpenlt]; exact hpenObj)
  have hIml : heapGet hI h.length = some (⟨PyClass.moduleList, [], sel⟩ : PyObj) := by
    rw [hIfr h.length ((Nat.ne_of_lt hpenlt).symm)]
    exact hml1
  have hIold : ∀ x, x < h.length → x ≠ pen → heapGet hI x = heapGet h x := by
    intro x hx hxpen
    rw [hIfr x hxpen]
    exact hfr1 x hx
  obtain ⟨hF, hrest, hFres, hFfr⟩ := scoped_restore (h := h) (g := hI)
    hsplit hch hnd hpen
    (fun x hx => hIold x (hreadlt x hx) (fun hxp => hpennot (hxp ▸ hx)))
    hpenObj hIpen rfl (get_transformer_layers_resolves hgtl)
  refine ⟨hI, hF, ?_, hIml, hIres, hIold, hFres, ?_⟩
  · simp only [permute_layers, hgtl, hllo, hsel, alloc]
    rw [hinst]
    simp only []
    rw [hb hI, hrest]
  · intro x hx hxpen
    rw [hFfr x hxpen]
    exact hIold x hx hxpen

/-- Full run of `replace_layers` with in-range zipped pairs and a
heap-preserving body: the scope installs the updated copy at a fresh address
and the exit restores the original list's resolution. -/
lemma replace_layers_run {α : Type} {h : Heap} {model ll pen : Addr}
    {lp : String} {iks : List String} {lk : String} {ch : List Addr}
    {llo oPen : PyObj} {indices : List Int} {replacements newItems : List Addr}
    {b : Heap → Except Err α × Heap}
    (hgtl : get_transformer_layers h model = .ok (lp, ll))
    (hsplit : splitKeys lp = iks ++ [lk])
    (hdig : strIsDigit lk = false)
    (hch : walkChain h model iks = some ch)
    (hnd : ch.Nodup)
    (hpen : ch.getLastD 0 = pen)
    (hllo : heapGet h ll = some llo)
    (hpenObj : heapGet h pen = some oPen)
    (hset : setItemsH (h ++ [(⟨PyClass.moduleList, [], llo.items⟩ : PyObj)])
        h.length (indices.zip replacements) =
      (.ok (), heapSet (h ++ [(⟨PyClass.moduleList, [], llo.items⟩ : PyObj)]) h.length
        (⟨PyClass.moduleList, [], newItems⟩ : PyObj)))
    (hb : ∀ hh, (b hh).2 = hh) :
    ∃ hI hF, replace_layers h model indices replacements b = ((b hI).1, hF) ∧
      heapGet hI h.length =
        some { cls := .moduleList, attrs := [], items := newItems } ∧
      get_key_path hI model lp = .ok h.length ∧
      (∀ x, x < h.length → x ≠ pen → heapGet hI x = heapGet h x) ∧
      get_key_path hF model lp = .ok ll ∧
      (∀ x, x < h.length → x ≠ pen → heapGet hF x = heapGet h x) := by
  have hpenlt : pen < h.length := heapGet_lt hpenObj
  have hreadlt : ∀ x ∈ ch.dropLast, x < h.length := fun x hx => by
    obtain ⟨o, ho⟩ := walkChain_reads hch x hx
    exact heapGet_lt ho
  have hchne : ch ≠ [] := by
    obtain ⟨t, ht⟩ := walkChain_cons_decompose hch
    rw [ht]
    simp
  have hpennot : pen ∉ ch.dropLast := by
    rw [← hpen]
    exact nodup_getLastD_not_mem_dropLast hnd hchne
  have hml1 : heapGet (h ++ [(⟨PyClass.moduleList, [], llo.items⟩ : PyObj)]) h.length =
      some (⟨PyClass.moduleList, [], llo.items⟩ : PyObj) := heapGet_alloc_self _ _
  have hfr1 : ∀ x, x < h.length →
      heapGet (h ++ [(⟨PyClass.moduleList, [], llo.items⟩ : PyObj)]) x = heapGet h x :=
    fun x hx => heapGet_append hx
  have hfr2 : ∀ x, x < h.length →
      heapGet (heapSet (h ++ [(⟨PyClass.moduleList, [], llo.items⟩ : PyObj)]) h.length
        (⟨PyClass.moduleList, [], newItems⟩ : PyObj)) x =
      heapGet h x := fun x hx => by
    rw [heapGet_set_ne ((Nat.ne_of_lt hx))]
    exact hfr1 x hx
  have hml2 : heapGet (heapSet (h ++ [(⟨PyClass.moduleList, [], llo.items⟩ : PyObj)]) h.length
        (⟨PyClass.moduleList, [], newItems⟩ : PyObj)) h.length =
      some (⟨PyClass.moduleList, [], newItems⟩ : PyObj) :=
    heapGet_set_self hml1
  obtain ⟨hI, hinst, hIres, hIpen, hIfr⟩ := scoped_install (h := h)
    (g := heapSet (h ++ [(⟨PyClass.moduleList, [], llo.items⟩ : PyObj)]) h.length
      (⟨PyClass.moduleList, [], newItems⟩ : PyObj))
    (v := h.length) hsplit hdig hch hnd
    (fun x hx => hfr2 x (hreadlt x hx)) hpen
    (by rw [hfr2 pen hpenlt]; exact hpenObj)
  have hIml : heapGet hI h.length =
      some (⟨PyClass.moduleList, [], newItems⟩ : PyObj) := by
    rw [hIfr h.length ((Nat.ne_of_lt hpenlt).symm)]
    exact hml2
  have hIold : ∀ x, x < h.length → x ≠ pen → heapGet hI x = heapGet h x := by
    intro x hx hxpen
    rw [hIfr x hxpen]
    exact hfr2 x hx
  obtain ⟨hF, hrest, hFres, hFfr⟩ := scoped_restore (h := h) (g := hI)
    hsplit hch hnd hpen
    (fun x hx => hIold x (hreadlt x hx) (fun hxp => hpennot (hxp ▸ hx)))
    hpenObj hIpen rfl (get_transformer_layers_resolves hgtl)
  refine ⟨hI, hF, ?_, hIml, hIres, hIold, hFres, ?_⟩
  · simp only [replace_layers, hgtl, hllo, alloc]
    rw [hset]
    simp only []
    rw [hinst]
    simp only []
    rw [hb hI, hrest]
  · intro x hx hxpen
    rw [hFfr x hxpen]
    exact hIold x hx hxpen

/-- Full run of `assign_key_path` on a resolvable, alias-free path with a
heap-preserving body: the body's outcome passes through and the path's
resolution is restored to the original address on exit. -/
lemma assign_key_path_run {α : Type} {h : Heap} {model old v pen : Addr}
    {path : String} {iks : List String} {lk : String} {ch : List Addr}
    {oPen : PyObj} {b : Heap → Except Err α × Heap}
    (hres : get_key_path h model path = .ok old)
    (hsplit : splitKeys path = iks ++ [lk])
    (hch : walkChain h model iks = some ch)
    (hnd : ch.Nodup)
    (hpen : ch.getLastD 0 = pen)
    (hpenObj : heapGet h pen = some oPen)
    (hb : ∀ hh, (b hh).2 = hh) :
    ∃ hI hF, assign_key_path h model path v b = ((b hI).1, hF) ∧
      get_key_path hF model path = .ok old ∧
      (strIsDigit lk = false → get_key_path hI model path = .ok v) ∧
      (∀ x, x ≠ pen → heapGet hI x = heapGet h x) := by
  have hchne : ch ≠ [] := by
    obtain ⟨t, ht⟩ := walkChain_cons_decompose hch
    rw [ht]
    simp
  have hpennot : pen ∉ ch.dropLast := by
    rw [← hpen]
    exact nodup_getLastD_not_mem_dropLast hnd hchne
  have hinst : set_key_path_ h model path v =
      .ok (heapSet h pen { oPen with attrs := setAttrList oPen.attrs lk v }) :=
    set_key_path_eval hsplit hch (fun x _ => rfl) hpen hpenObj
  have hafter := get_key_path_after_set (v := v) hsplit hch hnd
    (fun x _ => rfl) hpen hpenObj
  have hIpen : heapGet (heapSet h pen { oPen with attrs := setAttrList oPen.attrs lk v })
      pen = some { oPen with attrs := setAttrList oPen.attrs lk v } :=
    heapGet_set_self hpenObj
  have hIfr : ∀ x, x ≠ pen →
      heapGet (heapSet h pen { oPen with attrs := setAttrList oPen.attrs lk v }) x =
      heapGet h x := fun x hx => heapGet_set_ne hx
  obtain ⟨hF, hrest, hFres, hFfr⟩ := scoped_restore (h := h)
    (g := heapSet h pen { oPen with attrs := setAttrList oPen.attrs lk v })
    hsplit hch hnd hpen
    (fun x hx => hIfr x (fun hxp => hpennot (hxp ▸ hx)))
    hpenObj hIpen rfl hres
  refine ⟨heapSet h pen { oPen with attrs := setAttrList oPen.attrs lk v }, hF,
    ?_, hFres, ?_, hIfr⟩
  · simp only [assign_key_path, hres]
    rw [hinst]
    simp only []
    rw [hb (heapSet h pen { oPen with attrs := setAttrList oPen.attrs lk v }), hrest]
  · intro hdig
    rw [hafter.2, hdig]
    simp

/-- Key-path walks only fail with attribute or index errors. -/
lemma walkKeys_error_kinds : ∀ {ks : List String} {h : Heap} {a : Addr}
    {e : Err}, walkKeys h a ks = .error e →
    (∃ k, e = .attributeError k) ∨ e = .indexError := by
  intro ks
  induction ks with
  | nil => intro h a e hw; cases hw
  | cons k rest ih =>
    intro h a e hw
    simp only [walkKeys] at hw
    cases hg : get_value_for_key h a k with
    | error e' =>
      rw [hg] at hw
      injection hw with he
      subst he
      unfold get_value_for_key at hg
      cases ho : heapGet h a with
      | none =>
        rw [ho] at hg
        simp only [] at hg
        injection hg with he'
        exact Or.inl ⟨k, he'.symm⟩
      | some o =>
        rw [ho] at hg
        simp only [] at hg
        by_cases hd : strIsDigit k
        · rw [if_pos hd] at hg
          cases hi : o.items.get? (strToNat k) with
          | none => rw [hi] at hg; injection hg with he'; exact Or.inr he'.symm
          | some v => rw [hi] at hg; cases hg
        · rw [if_neg hd] at hg
          cases hl : lookupAttr o.attrs k with
          | none => rw [hl] at hg; injection hg with he'; exact Or.inl ⟨k, he'.symm⟩
          | some v => rw [hl] at hg; cases hg
    | ok b =>
      rw [hg] at hw
      exact ih hw

/-- Plain attribute-path reads only fail with attribute errors. -/
lemma getattrPath_error_kinds : ∀ {ks : List String} {h : Heap} {a : Addr}
    {e : Err}, getattrPath h a ks = .error e → ∃ k, e = .attributeError k := by
  intro ks
  induction ks with
  | nil => intro h a e hw; cases hw
  | cons k rest ih =>
    intro h a e hw
    simp only [getattrPath] at hw
    cases hg : getattrE h a k with
    | error e' =>
      rw [hg] at hw
      injection hw with he
      subst he
      unfold getattrE at hg
      cases ho : heapGet h a with
      | none =>
        rw [ho] at hg
        simp only [] at hg
        injection hg with he'
        exact ⟨k, he'.symm⟩
      | some o =>
        rw [ho] at hg
        simp only [] at hg
        cases hl : lookupAttr o.attrs k with
        | none => rw [hl] at hg; injection hg with he'; exact ⟨k, he'.symm⟩
        | some v => rw [hl] at hg; cases hg
    | ok b =>
      rw [hg] at hw
      exact ih hw

/-- Deleting with any index outside the original list's range raises
`IndexError` before the new sequence is installed, leaving every existing
address and the layer path's resolution untouched. -/
lemma delete_layers_oob {α : Type} {h : Heap} {model ll : Addr} {lp : String}
    {llo : PyObj} {indices : List Int} {b : Heap → Except Err α × Heap}
    (hgtl : get_transformer_layers h model = .ok (lp, ll))
    (hllo : heapGet h ll = some llo)
    (hoob : ∃ i ∈ indices,
      (llo.items.length : Int) ≤ i ∨ i < -(llo.items.length : Int)) :
    ∃ h2, delete_layers h model indices b = (.error .indexError, h2) ∧
      (∀ x, x < h.length → heapGet h2 x = heapGet h x) ∧
      get_key_path h2 model lp = .ok ll := by
  have hml1 : heapGet (h ++ [(⟨PyClass.moduleList, [], llo.items⟩ : PyObj)]) h.length =
      some (⟨PyClass.moduleList, [], llo.items⟩ : PyObj) := heapGet_alloc_self _ _
  obtain ⟨i, hi, hib⟩ := hoob
  have herr := delDescend_oob (n := llo.items.length) hml1 (by simp)
    ⟨i, mem_sortedDesc.mpr hi, hib⟩
  cases hdd : delDescend (h ++ [(⟨PyClass.moduleList, [], llo.items⟩ : PyObj)])
      h.length (sortedDesc indices) with
  | mk r1 h2 =>
    rw [hdd] at herr
    simp only [] at herr
    subst herr
    have hfr : ∀ x, x < h.length → heapGet h2 x = heapGet h x := by
      intro x hx
      have hframe := delDescend_frame (l := sortedDesc indices)
        (h := h ++ [(⟨PyClass.moduleList, [], llo.items⟩ : PyObj)]) (m := h.length)
        (x := x) (Nat.ne_of_lt hx)
      rw [hdd] at hframe
      simp only [] at hframe
      rw [hframe]
      exact heapGet_append hx
    refine ⟨h2, ?_, hfr, get_key_path_frame_ok (get_transformer_layers_resolves hgtl) hfr⟩
    simp only [delete_layers, hgtl, hllo, alloc]
    rw [hdd]

/-- Permuting with any out-of-range index raises `IndexError` before
anything is installed, leaving the heap exactly as it was. -/
lemma permute_layers_oob {α : Type} {h : Heap} {model ll : Addr} {lp : String}
    {llo : PyObj} {indices : List Int} {b : Heap → Except Err α × Heap}
    (hgtl : get_transformer_layers h model = .ok (lp, ll))
    (hllo : heapGet h ll = some llo)
    (hoob : ∃ i ∈ indices,
      (llo.items.length : Int) ≤ i ∨ i < -(llo.items.length : Int)) :
    permute_layers h model indices b = (.error .indexError, h) := by
  obtain ⟨i, hi, hib⟩ := hoob
  have hbuild := buildPermuted_oob (t := llo.items) ⟨i, hi, pyNorm_oob hib⟩
  simp only [permute_layers, hgtl, hllo, hbuild]

/-- Replacing with an out-of-range index among the zipped pairs raises
`IndexError` before the new sequence is installed, leaving every existing
address and the layer path's resolution untouched. -/
lemma replace_layers_oob {α : Type} {h : Heap} {model ll : Addr} {lp : String}
    {llo : PyObj} {indices : List Int} {replacements : List Addr}
    {b : Heap → Except Err α × Heap}
    (hgtl : get_transformer_layers h model = .ok (lp, ll))
    (hllo : heapGet h ll = some llo)
    (hoob : ∃ p ∈ indices.zip replacements,
      (llo.items.length : Int) ≤ p.1 ∨ p.1 < -(llo.items.length : Int)) :
    ∃ h2, replace_layers h model indices replacements b = (.error .indexError, h2) ∧
      (∀ x, x < h.length → heapGet h2 x = heapGet h x) ∧
      get_key_path h2 model lp = .ok ll := by
  have hml1 : heapGet (h ++ [(⟨PyClass.moduleList, [], llo.items⟩ : PyObj)]) h.length =
      some (⟨PyClass.moduleList, [], llo.items⟩ : PyObj) := heapGet_alloc_self _ _
  have herr := setItemsH_oob (n := llo.items.length) hml1 (by simp) hoob
  cases hdd : setItemsH (h ++ [(⟨PyClass.moduleList, [], llo.items⟩ : PyObj)])
      h.length (indices.zip replacements) with
  | mk r1 h2 =>
    rw [hdd] at herr
    simp only [] at herr
    subst herr
    have hfr : ∀ x, x < h.length → heapGet h2 x = heapGet h x := by
      intro x hx
      have hframe := setItemsH_frame (l := indices.zip replacements)
        (h := h ++ [(⟨PyClass.moduleList, [], llo.items⟩ : PyObj)]) (m := h.length)
        (x := x) (Nat.ne_of_lt hx)
      rw [hdd] at hframe
      simp only [] at hframe
      rw [hframe]
      exact heapGet_append hx
    refine ⟨h2, ?_, hfr, get_key_path_frame_ok (get_transformer_layers_resolves hgtl) hfr⟩
    simp only [replace_layers, hgtl, hllo, alloc]
    rw [hdd]

/-- One-step deletion loop. -/
lemma delDescend_single {h : Heap} {ml : Addr} {o : PyObj} {i : Int} {j : Nat}
    (hg : heapGet h ml = some o) (hp : pyNorm o.items.length i = some j) :
    delDescend h ml [i] =
      (.ok (), heapSet h ml { o with items := o.items.eraseIdx j }) := by
  simp only [delDescend, hg, hp]

/-- One-step assignment loop. -/
lemma setItemsH_single {h : Heap} {ml : Addr} {o : PyObj} {i : Int} {j : Nat}
    {r : Addr} (hg : heapGet h ml = some o)
    (hp : pyNorm o.items.length i = some j) :
    setItemsH h ml [(i, r)] =
      (.ok (), heapSet h ml { o with items := o.items.set j r }) := by
  simp only [setItemsH, hg, hp]

/-- Sorting a singleton. -/
lemma sortedDesc_single (i : Int) : sortedDesc [i] = [i] := rfl

/-- A small OPT-style model heap: address 0 is the model, 1 its
`base_model` (an `OPTModel`), 2 the decoder (holding `final_layer_norm`
and `layers`), 3 the three-layer `ModuleList` with layers at 4, 5, 6, and
7 the final `LayerNorm`. -/
def sampleHeap : Heap :=
  [ ⟨.plain, [("base_model", 1)], []⟩,
    ⟨.optModel, [("decoder", 2)], []⟩,
    ⟨.plain, [("final_layer_norm", 7), ("layers", 3)], []⟩,
    ⟨.moduleList, [], [4, 5, 6]⟩,
    ⟨.plain, [], []⟩,
    ⟨.plain, [], []⟩,
    ⟨.plain, [], []⟩,
    ⟨.layerNorm, [], []⟩ ]

/-- A heap whose root holds an indexable container at attribute `xs`:
`xs[0]` is the object at address 2; address 3 is a spare value. -/
def pathHeap : Heap :=
  [ ⟨.plain, [("xs", 1)], []⟩,
    ⟨.plain, [], [2]⟩,
    ⟨.plain, [], []⟩,
    ⟨.plain, [], []⟩ ]

/-- A self-referential heap: the root's attribute `a` is the root itself;
address 1 is a fresh leaf value. -/
def loopHeap : Heap :=
  [ ⟨.plain, [("a", 0)], []⟩,
    ⟨.plain, [], []⟩ ]

/-- An OPT-style heap whose decoder's `final_layer_norm` is `None`. -/
def noneNormHeap : Heap :=
  [ ⟨.plain, [("base_model", 1)], []⟩,
    ⟨.optModel, [("decoder", 2)], []⟩,
    ⟨.plain, [("final_layer_norm", 3)], []⟩,
    ⟨.noneType, [], []⟩ ]

/-- A model object with no `base_model` attribute. -/
def noBaseHeap : Heap :=
  [ ⟨.plain, [], []⟩ ]

/-- Extract the heap a `(fun hh => (Except.ok hh, hh))` observer body saw
inside a scope. -/
def insideHeapOf (p : Except Err Heap × Heap) : Heap :=
  match p.1 with
  | .ok hh => hh
  | .error _ => []

/-- C9 (confirmed): `get_value_for_key` treats a segment composed entirely
of decimal digits as an integer index resolved via indexed access, and any
other segment — including the negative-looking token `"-1"` — as a named
attribute. -/
theorem get_value_for_key_digit_dispatch (h : Heap) (a : Addr) (o : PyObj)
    (key : String) (ho : heapGet h a = some o) :
    (strIsDigit key = true →
      get_value_for_key h a key =
        (match o.items.get? (strToNat key) with
         | some v => .ok v
         | none => .error .indexError)) ∧
    (strIsDigit key = false →
      get_value_for_key h a key =
        (match lookupAttr o.attrs key with
         | some v => .ok v
         | none => .error (.attributeError key))) ∧
    strIsDigit "-1" = false := by
  refine ⟨?_, ?_, by decide⟩
  · intro hd
    unfold get_value_for_key
    rw [ho]
    simp only []
    rw [if_pos hd]
  · intro hd
    unfold get_value_for_key
    rw [ho]
    simp only []
    rw [if_neg (by rw [hd]; simp)]

/-- Witness for C9 at the sample heap's decoder and layer list: `"1"`
indexes the layer list, `"layers"` and `"-1"` read attributes. -/
theorem get_value_for_key_digit_dispatch_witness :
    ((strIsDigit "1" = true →
      get_value_for_key sampleHeap 3 "1" =
        (match (⟨PyClass.moduleList, [], [4, 5, 6]⟩ : PyObj).items.get? (strToNat "1") with
         | some v => .ok v
         | none => .error .indexError)) ∧
    (strIsDigit "1" = false →
      get_value_for_key sampleHeap 3 "1" =
        (match lookupAttr (⟨PyClass.moduleList, [], [4, 5, 6]⟩ : PyObj).attrs "1" with
         | some v => .ok v
         | none => .error (.attributeError "1"))) ∧
    strIsDigit "-1" = false) ∧
    get_value_for_key sampleHeap 3 "1" = .ok 5 ∧
    get_value_for_key sampleHeap 2 "-1" = .error (.attributeError "-1") :=
  ⟨get_value_for_key_digit_dispatch sampleHeap 3 ⟨PyClass.moduleList, [], [4, 5, 6]⟩
    "1" (by decide), by decide, by decide⟩

/-- C1 (corrected): `set_key_path_` walks all but the last segment with the
same walker as `get_key_path`, but then writes the value with an
unconditional attribute assignment (`setattr`) — never the index assignment
of `set_value_for_key_`, even when the last segment is all-digit; in
particular no object's item list or class is ever changed by it. -/
theorem set_key_path_attr_assign (h h' : Heap) (model value a : Addr)
    (lp : String) (iks : List String) (lk : String) (o' : PyObj)
    (hsplit : splitKeys lp = iks ++ [lk])
    (hset : set_key_path_ h model lp value = .ok h')
    (ho' : heapGet h' a = some o') :
    set_key_path_ h model lp value =
      (match walkKeys h model iks with
       | .error e => .error e
       | .ok pen => setattrE h pen lk value) ∧
    ∃ o, heapGet h a = some o ∧ o'.items = o.items ∧ o'.cls = o.cls := by
  have heval : set_key_path_ h model lp value =
      (match walkKeys h model iks with
       | .error e => .error e
       | .ok pen => setattrE h pen lk value) := by
    unfold set_key_path_
    rw [hsplit]
    simp only [List.dropLast_concat, List.getLastD_concat]
  refine ⟨heval, ?_⟩
  rw [heval] at hset
  cases hw : walkKeys h model iks with
  | error e => rw [hw] at hset; simp at hset
  | ok pen =>
    rw [hw] at hset
    simp only [] at hset
    unfold setattrE at hset
    cases hp : heapGet h pen with
    | none => rw [hp] at hset; simp at hset
    | some o =>
      rw [hp] at hset
      simp only [] at hset
      injection hset with hh'
      subst hh'
      by_cases ha : a = pen
      · subst ha
        rw [heapGet_set_self hp] at ho'
        injection ho' with ho''
        subst ho''
        exact ⟨o, hp, rfl, rfl⟩
      · rw [heapGet_set_ne ha] at ho'
        exact ⟨o', ho', rfl, rfl⟩

/-- Witness for C1 at the sample heap: installing a value at
`base_model.decoder.layers` is the walk plus a `setattr` on the decoder,
and the layer list object's items and class at address 3 are untouched. -/
theorem set_key_path_attr_assign_witness :
    (set_key_path_ sampleHeap 0 "base_model.decoder.layers" 7 =
      (match walkKeys sampleHeap 0 ["base_model", "decoder"] with
       | .error e => .error e
       | .ok pen => setattrE sampleHeap pen "layers" 7) ∧
    ∃ o, heapGet sampleHeap 3 = some o ∧
      (⟨PyClass.moduleList, [], [4, 5, 6]⟩ : PyObj).items = o.items ∧
      (⟨PyClass.moduleList, [], [4, 5, 6]⟩ : PyObj).cls = o.cls) :=
  set_key_path_attr_assign sampleHeap
    [ ⟨.plain, [("base_model", 1)], []⟩,
      ⟨.optModel, [("decoder", 2)], []⟩,
      ⟨.plain, [("final_layer_norm", 7), ("layers", 7)], []⟩,
      ⟨.moduleList, [], [4, 5, 6]⟩,
      ⟨.plain, [], []⟩,
      ⟨.plain, [], []⟩,
      ⟨.plain, [], []⟩,
      ⟨.layerNorm, [], []⟩ ]
    0 7 3 "base_model.decoder.layers" ["base_model", "decoder"] "layers"
    ⟨PyClass.moduleList, [], [4, 5, 6]⟩ (by decide) (by decide) (by decide)

/-- Counterexample for C1 as stated: on a digit-final path the source's
`set_key_path_` performs an attribute assignment, which differs observably
from the index assignment `set_value_for_key_` the claim asserts: the item
list stays `[2]` and an attribute named `"0"` appears instead. -/
theorem set_key_path_digit_cex :
    get_key_path pathHeap 0 "xs" = .ok 1 ∧
    set_value_for_key_ pathHeap 1 "0" 3 =
      .ok [ ⟨.plain, [("xs", 1)], []⟩, ⟨.plain, [], [3]⟩,
            ⟨.plain, [], []⟩, ⟨.plain, [], []⟩ ] ∧
    set_key_path_ pathHeap 0 "xs.0" 3 =
      .ok [ ⟨.plain, [("xs", 1)], []⟩, ⟨.plain, [("0", 3)], [2]⟩,
            ⟨.plain, [], []⟩, ⟨.plain, [], []⟩ ] ∧
    set_key_path_ pathHeap 0 "xs.0" 3 ≠ set_value_for_key_ pathHeap 1 "0" 3 := by
  refine ⟨by decide, by decide, by decide, by decide⟩

/-- C3 (amended): for every path that resolves and whose final segment is
not all-digit, writing back the value read at that path is an exact no-op
on the heap. -/
theorem set_get_roundtrip (h : Heap) (model old : Addr) (lp : String)
    (iks : List String) (lk : String)
    (hsplit : splitKeys lp = iks ++ [lk])
    (hdig : strIsDigit lk = false)
    (hres : get_key_path h model lp = .ok old) :
    set_key_path_ h model lp old = .ok h := by
  unfold get_key_path at hres
  rw [hsplit, walkKeys_append] at hres
  cases hw : walkKeys h model iks with
  | error e => rw [hw] at hres; simp at hres
  | ok pen =>
    rw [hw] at hres
    simp only [walkKeys] at hres
    cases hg : get_value_for_key h pen lk with
    | error e => rw [hg] at hres; simp at hres
    | ok v =>
      rw [hg] at hres
      simp only [] at hres
      injection hres with hv
      subst hv
      unfold get_value_for_key at hg
      cases hp : heapGet h pen with
      | none => rw [hp] at hg; cases hg
      | some o =>
        rw [hp] at hg
        simp only [] at hg
        rw [if_neg (by rw [hdig]; simp)] at hg
        cases hl : lookupAttr o.attrs lk with
        | none => rw [hl] at hg; cases hg
        | some v' =>
          rw [hl] at hg
          injection hg with hv'
          subst hv'
          unfold set_key_path_
          rw [hsplit]
          simp only [List.dropLast_concat, List.getLastD_concat]
          rw [hw]
          simp only []
          unfold setattrE
          rw [hp]
          simp only [setAttrList_same hl]
          rw [show ({ cls := o.cls, attrs := o.attrs, items := o.items } : PyObj) = o from rfl,
            heapSet_same hp]

/-- Witness for C3 at the sample heap: re-writing the layer list read at
`base_model.decoder.layers` leaves the heap identical. -/
theorem set_get_roundtrip_witness :
    set_key_path_ sampleHeap 0 "base_model.decoder.layers" 3 = .ok sampleHeap :=
  set_get_roundtrip sampleHeap 0 3 "base_model.decoder.layers"
    ["base_model", "decoder"] "layers" (by decide) (by decide) (by decide)

/-- Counterexample for C3 as stated: on the digit-final path `xs.0` the
round trip is not a no-op — the write creates an attribute named `"0"` on
the container instead of re-assigning item 0, changing the heap. -/
theorem set_get_roundtrip_digit_cex :
    get_key_path pathHeap 0 "xs.0" = .ok 2 ∧
    set_key_path_ pathHeap 0 "xs.0" 2 =
      .ok [ ⟨.plain, [("xs", 1)], []⟩, ⟨.plain, [("0", 2)], [2]⟩,
            ⟨.plain, [], []⟩, ⟨.plain, [], []⟩ ] ∧
    set_key_path_ pathHeap 0 "xs.0" 2 ≠ .ok pathHeap := by
  refine ⟨by decide, by decide, by decide⟩

/-- C5 (confirmed): inside the scope of `permute_layers`, with every index
nonnegative and in range, the installed layer list is a fresh `ModuleList`
whose length equals the number of indices and whose `k`-th entry is the
original list's entry at `indices[k]` — omitted indices drop layers and
repeated indices duplicate them. -/
theorem permute_installs_selected (h : Heap) (model ll pen : Addr)
    (lp : String) (iks : List String) (lk : String) (ch : List Addr)
    (llo oPen : PyObj) (indices : List Int)
    (hgtl : get_transformer_layers h model = .ok (lp, ll))
    (hsplit : splitKeys lp = iks ++ [lk])
    (hdig : strIsDigit lk = false)
    (hch : walkChain h model iks = some ch)
    (hnd : ch.Nodup)
    (hpen : ch.getLastD 0 = pen)
    (hllo : heapGet h ll = some llo)
    (hpenObj : heapGet h pen = some oPen)
    (hin : ∀ i ∈ indices, 0 ≤ i ∧ i < (llo.items.length : Int)) :
    ∃ hI hF mlo,
      permute_layers h model indices (fun hh => (Except.ok hh, hh)) = (.ok hI, hF) ∧
      get_key_path hI model lp = .ok h.length ∧
      heapGet hI h.length = some mlo ∧ mlo.cls = .moduleList ∧
      mlo.items.length = indices.length ∧
      (∀ k i, indices.get? k = some i →
        mlo.items.get? k = llo.items.get? i.toNat) := by
  obtain ⟨sel, hsel, hlen, hpt⟩ := buildPermuted_ok (t := llo.items)
    (fun i hi => by rw [pyNorm_nonneg (hin i hi).1 (hin i hi).2]; simp)
  obtain ⟨hI, hF, heq, hIml, hIres, hIold, hFres, hFold⟩ :=
    permute_layers_run (b := fun hh => (Except.ok hh, hh)) hgtl hsplit hdig hch
      hnd hpen hllo hpenObj hsel (fun hh => rfl)
  refine ⟨hI, hF, ⟨.moduleList, [], sel⟩, heq, hIres, hIml, rfl, hlen, ?_⟩
  intro k i hk
  have hmem := List.get?_mem hk
  exact hpt k i i.toNat hk (pyNorm_nonneg (hin i hmem).1 (hin i hmem).2)

/-- Witness for C5 at the sample heap: permuting the three-layer list with
`[0, 0, 2]` installs a list resolving at the layer path whose entries are
layers 0, 0 and 2 — layer 0 duplicated, layer 1 dropped. -/
theorem permute_installs_selected_witness :
    ∃ hI hF mlo,
      permute_layers sampleHeap 0 [0, 0, 2] (fun hh => (Except.ok hh, hh)) =
        (.ok hI, hF) ∧
      get_key_path hI 0 "base_model.decoder.layers" = .ok sampleHeap.length ∧
      heapGet hI sampleHeap.length = some mlo ∧ mlo.cls = .moduleList ∧
      mlo.items.length = ([0, 0, 2] : List Int).length ∧
      (∀ k i, ([0, 0, 2] : List Int).get? k = some i →
        mlo.items.get? k =
          (⟨PyClass.moduleList, [], [4, 5, 6]⟩ : PyObj).items.get? i.toNat) :=
  permute_installs_selected sampleHeap 0 3 2 "base_model.decoder.layers"
    ["base_model", "decoder"] "layers" [0, 1, 2]
    ⟨PyClass.moduleList, [], [4, 5, 6]⟩ ⟨.plain, [("final_layer_norm", 7), ("layers", 3)], []⟩
    [0, 0, 2] (by decide) (by decide) (by decide) (by decide) (by decide)
    (by decide) (by decide) (by decide) (by decide)

/-- C6 (confirmed): inside the scope of `delete_layers`, with a
duplicate-free set of nonnegative in-range indices, the installed list is a
fresh copy of the original with exactly the listed positions removed
(deletion processed in descending index order), and the original list
object is not mutated. -/
theorem delete_installs_filtered (h : Heap) (model ll pen : Addr)
    (lp : String) (iks : List String) (lk : String) (ch : List Addr)
    (llo oPen : PyObj) (indices : List Int)
    (hgtl : get_transformer_layers h model = .ok (lp, ll))
    (hsplit : splitKeys lp = iks ++ [lk])
    (hdig : strIsDigit lk = false)
    (hch : walkChain h model iks = some ch)
    (hnd : ch.Nodup)
    (hpen : ch.getLastD 0 = pen)
    (hllo : heapGet h ll = some llo)
    (hpenObj : heapGet h pen = some oPen)
    (hnodup : indices.Nodup)
    (hin : ∀ i ∈ indices, 0 ≤ i ∧ i < (llo.items.length : Int))
    (hllpen : ll ≠ pen) :
    ∃ hI hF mlo,
      delete_layers h model indices (fun hh => (Except.ok hh, hh)) = (.ok hI, hF) ∧
      get_key_path hI model lp = .ok h.length ∧
      heapGet hI h.length = some mlo ∧ mlo.cls = .moduleList ∧
      mlo.items = keepNotListed indices llo.items 0 ∧
      heapGet hI ll = some llo := by
  have hpw := sortedDesc_pairwise_gt hnodup
  have hins : ∀ i ∈ sortedDesc indices, 0 ≤ i ∧ i < (llo.items.length : Int) :=
    fun i hi => hin i (mem_sortedDesc.mp hi)
  have hdel : delDescend (h ++ [(⟨PyClass.moduleList, [], llo.items⟩ : PyObj)])
        h.length (sortedDesc indices) =
      (.ok (), heapSet (h ++ [(⟨PyClass.moduleList, [], llo.items⟩ : PyObj)]) h.length
        (⟨PyClass.moduleList, [], eraseAllInt llo.items (sortedDesc indices)⟩ : PyObj)) := by
    have := delDescend_ok_pure (h := h ++ [(⟨PyClass.moduleList, [], llo.items⟩ : PyObj)])
      (m := h.length) (heapGet_alloc_self _ _) hpw (by simpa using hins)
    simpa using this
  obtain ⟨hI, hF, heq, hIml, hIres, hIold, hFres, hFold⟩ :=
    delete_layers_run (b := fun hh => (Except.ok hh, hh)) hgtl hsplit hdig hch
      hnd hpen hllo hpenObj hdel (fun hh => rfl)
  refine ⟨hI, hF, ⟨.moduleList, [], eraseAllInt llo.items (sortedDesc indices)⟩,
    heq, hIres, hIml, rfl, ?_, ?_⟩
  · show eraseAllInt llo.items (sortedDesc indices) = keepNotListed indices llo.items 0
    rw [eraseAllInt_eq_keep hpw hins]
    exact keepNotListed_congr (fun p => by
      constructor
      · exact fun hp => mem_sortedDesc.mp hp
      · exact fun hp => mem_sortedDesc.mpr hp)
  · rw [hIold ll (heapGet_lt hllo) hllpen]
    exact hllo

/-- Witness for C6 at the sample heap: deleting `[0, 2]` from the
three-layer list installs exactly the middle layer and leaves the original
list object at address 3 untouched. -/
theorem delete_installs_filtered_witness :
    ∃ hI hF mlo,
      delete_layers sampleHeap 0 [0, 2] (fun hh => (Except.ok hh, hh)) =
        (.ok hI, hF) ∧
      get_key_path hI 0 "base_model.decoder.layers" = .ok sampleHeap.length ∧
      heapGet hI sampleHeap.length = some mlo ∧ mlo.cls = .moduleList ∧
      mlo.items = keepNotListed [0, 2]
        (⟨PyClass.moduleList, [], [4, 5, 6]⟩ : PyObj).items 0 ∧
      heapGet hI 3 = some ⟨PyClass.moduleList, [], [4, 5, 6]⟩ :=
  delete_installs_filtered sampleHeap 0 3 2 "base_model.decoder.layers"
    ["base_model", "decoder"] "layers" [0, 1, 2]
    ⟨PyClass.moduleList, [], [4, 5, 6]⟩ ⟨.plain, [("final_layer_norm", 7), ("layers", 3)], []⟩
    [0, 2] (by decide) (by decide) (by decide) (by decide) (by decide)
    (by decide) (by decide) (by decide) (by decide) (by decide) (by decide)

/-- C7 (amended): inside the scope of `replace_layers`, with in-range
zipped pairs whose normalised indices are pairwise distinct, the installed
list is a copy of the original with `new[indices[k]] = replacements[k]` for
each zipped `k` (zip truncation) and every unlisted position identical to
the original; after exit the path resolves to the original list again, its
layers unchanged.  (For repeated indices the claim as stated fails: the
later assignment wins.) -/
theorem replace_installs_zip (h : Heap) (model ll pen : Addr)
    (lp : String) (iks : List String) (lk : String) (ch : List Addr)
    (llo oPen : PyObj) (indices : List Int) (replacements : List Addr)
    (hgtl : get_transformer_layers h model = .ok (lp, ll))
    (hsplit : splitKeys lp = iks ++ [lk])
    (hdig : strIsDigit lk = false)
    (hch : walkChain h model iks = some ch)
    (hnd : ch.Nodup)
    (hpen : ch.getLastD 0 = pen)
    (hllo : heapGet h ll = some llo)
    (hpenObj : heapGet h pen = some oPen)
    (hin : ∀ p ∈ indices.zip replacements, 0 ≤ p.1 ∧ p.1 < (llo.items.length : Int))
    (hdist : List.Pairwise (fun p q => p.1.toNat ≠ q.1.toNat) (indices.zip replacements))
    (hllpen : ll ≠ pen) :
    ∃ hI hF mlo,
      replace_layers h model indices replacements (fun hh => (Except.ok hh, hh)) =
        (.ok hI, hF) ∧
      get_key_path hI model lp = .ok h.length ∧
      heapGet hI h.length = some mlo ∧
      mlo.items.length = llo.items.length ∧
      (∀ k p, (indices.zip replacements).get? k = some p →
        mlo.items.get? p.1.toNat = some p.2) ∧
      (∀ j : Nat, (∀ p ∈ indices.zip replacements, p.1.toNat ≠ j) →
        mlo.items.get? j = llo.items.get? j) ∧
      get_key_path hF model lp = .ok ll ∧
      heapGet hF ll = some llo := by
  have hset : setItemsH (h ++ [(⟨PyClass.moduleList, [], llo.items⟩ : PyObj)])
        h.length (indices.zip replacements) =
      (.ok (), heapSet (h ++ [(⟨PyClass.moduleList, [], llo.items⟩ : PyObj)]) h.length
        (⟨PyClass.moduleList, [], setAllInt llo.items (indices.zip replacements)⟩ : PyObj)) := by
    have := setItemsH_ok_pure (h := h ++ [(⟨PyClass.moduleList, [], llo.items⟩ : PyObj)])
      (m := h.length) (heapGet_alloc_self _ _) (fun p hp => by simpa using hin p hp)
    simpa using this
  obtain ⟨hI, hF, heq, hIml, hIres, hIold, hFres, hFold⟩ :=
    replace_layers_run (b := fun hh => (Except.ok hh, hh)) hgtl hsplit hdig hch
      hnd hpen hllo hpenObj hset (fun hh => rfl)
  refine ⟨hI, hF, ⟨.moduleList, [], setAllInt llo.items (indices.zip replacements)⟩,
    heq, hIres, hIml, setAllInt_length, ?_, ?_, hFres, ?_⟩
  · intro k p hk
    obtain ⟨i, r⟩ := p
    exact setAllInt_get hdist
      (fun q hq => by
        have h1 := (hin q hq).1
        have h2 := (hin q hq).2
        omega) hk
  · intro j hj
    exact setAllInt_not_mem hj
  · rw [hFold ll (heapGet_lt hllo) hllpen]
    exact hllo

/-- Witness for C7 at the sample heap: replacing layer 0 with the module at
address 6 installs `[6, 5, 6]`, leaves positions 1 and 2 identical, and
after exit the layer path resolves to the untouched original list. -/
theorem replace_installs_zip_witness :
    ∃ hI hF mlo,
      replace_layers sampleHeap 0 [0] [6] (fun hh => (Except.ok hh, hh)) =
        (.ok hI, hF) ∧
      get_key_path hI 0 "base_model.decoder.layers" = .ok sampleHeap.length ∧
      heapGet hI sampleHeap.length = some mlo ∧
      mlo.items.length = (⟨PyClass.moduleList, [], [4, 5, 6]⟩ : PyObj).items.length ∧
      (∀ k p, (([0] : List Int).zip ([6] : List Addr)).get? k = some p →
        mlo.items.get? p.1.toNat = some p.2) ∧
      (∀ j : Nat, (∀ p ∈ ([0] : List Int).zip ([6] : List Addr), p.1.toNat ≠ j) →
        mlo.items.get? j = (⟨PyClass.moduleList, [], [4, 5, 6]⟩ : PyObj).items.get? j) ∧
      get_key_path hF 0 "base_model.decoder.layers" = .ok 3 ∧
      heapGet hF 3 = some ⟨PyClass.moduleList, [], [4, 5, 6]⟩ :=
  replace_installs_zip sampleHeap 0 3 2 "base_model.decoder.layers"
    ["base_model", "decoder"] "layers" [0, 1, 2]
    ⟨PyClass.moduleList, [], [4, 5, 6]⟩ ⟨.plain, [("final_layer_norm", 7), ("layers", 3)], []⟩
    [0] [6] (by decide) (by decide) (by decide) (by decide) (by decide)
    (by decide) (by decide) (by decide) (by decide) (by decide) (by decide)

/-- Counterexample for C7 as stated: with the repeated index list `[0, 0]`
and replacements `[5, 6]` the inside-scope list is `[6, 5, 6]` — position
`indices[0] = 0` holds replacement 6, not replacement 5 as the claim's
`new[indices[k]] = replacements[k]` demands for `k = 0`. -/
theorem replace_duplicate_index_cex :
    get_key_path (insideHeapOf (replace_layers sampleHeap 0 [0, 0] [5, 6]
        (fun hh => (Except.ok hh, hh)))) 0 "base_model.decoder.layers" =
      .ok 8 ∧
    (heapGet (insideHeapOf (replace_layers sampleHeap 0 [0, 0] [5, 6]
        (fun hh => (Except.ok hh, hh)))) 8).map PyObj.items = some [6, 5, 6] ∧
    ([6, 5, 6] : List Addr).get? 0 = some 6 ∧ (6 : Addr) ≠ 5 := by
  refine ⟨by decide, by decide, by decide, by decide⟩

/-- C10 (amended): `permute_layers` and `replace_layers` accept negative
in-range indices, addressing position `n + i` (Python-style); for
`delete_layers` a negative index is normalised against the length current
at its processing time, so a single negative index passed alone addresses
`n + i`, but combinations with other indices can address earlier positions
or raise even when each index is in range for the original list. -/
theorem negative_index_semantics (h : Heap) (model ll pen : Addr)
    (lp : String) (iks : List String) (lk : String) (ch : List Addr)
    (llo oPen : PyObj) (pIdx : List Int) (i : Int) (rep : Addr)
    (hgtl : get_transformer_layers h model = .ok (lp, ll))
    (hsplit : splitKeys lp = iks ++ [lk])
    (hdig : strIsDigit lk = false)
    (hch : walkChain h model iks = some ch)
    (hnd : ch.Nodup)
    (hpen : ch.getLastD 0 = pen)
    (hllo : heapGet h ll = some llo)
    (hpenObj : heapGet h pen = some oPen)
    (hpin : ∀ j ∈ pIdx, -(llo.items.length : Int) ≤ j ∧ j < (llo.items.length : Int))
    (hineg : i < 0)
    (hige : -(llo.items.length : Int) ≤ i) :
    ((∀ j : Int, j < 0 → -(llo.items.length : Int) ≤ j →
        pyNorm llo.items.length j = some (j + llo.items.length).toNat) ∧
      ∃ hI hF mlo,
        permute_layers h model pIdx (fun hh => (Except.ok hh, hh)) = (.ok hI, hF) ∧
        get_key_path hI model lp = .ok h.length ∧
        heapGet hI h.length = some mlo ∧
        mlo.items.length = pIdx.length ∧
        (∀ k j jn, pIdx.get? k = some j → pyNorm llo.items.length j = some jn →
          mlo.items.get? k = llo.items.get? jn)) ∧
    (∃ hI hF mlo,
      delete_layers h model [i] (fun hh => (Except.ok hh, hh)) = (.ok hI, hF) ∧
      get_key_path hI model lp = .ok h.length ∧
      heapGet hI h.length = some mlo ∧
      mlo.items = llo.items.eraseIdx (i + llo.items.length).toNat) ∧
    (∃ hI hF mlo,
      replace_layers h model [i] [rep] (fun hh => (Except.ok hh, hh)) = (.ok hI, hF) ∧
      get_key_path hI model lp = .ok h.length ∧
      heapGet hI h.length = some mlo ∧
      mlo.items = llo.items.set (i + llo.items.length).toNat rep) := by
  have hnormi : pyNorm llo.items.length i = some (i + llo.items.length).toNat :=
    pyNorm_neg hineg hige
  refine ⟨⟨fun j hj hjge => pyNorm_neg hj hjge, ?_⟩, ?_, ?_⟩
  · obtain ⟨sel, hsel, hlen, hpt⟩ := buildPermuted_ok (t := llo.items)
      (fun j hj => by
        by_cases hjn : j < 0
        · rw [pyNorm_neg hjn (hpin j hj).1]
          simp
        · rw [pyNorm_nonneg (by omega) (hpin j hj).2]
          simp)
    obtain ⟨hI, hF, heq, hIml, hIres, hIold, hFres, hFold⟩ :=
      permute_layers_run (b := fun hh => (Except.ok hh, hh)) hgtl hsplit hdig hch
        hnd hpen hllo hpenObj hsel (fun hh => rfl)
    exact ⟨hI, hF, ⟨.moduleList, [], sel⟩, heq, hIres, hIml, hlen,
      fun k j jn hk hjn => hpt k j jn hk hjn⟩
  · have hdel : delDescend (h ++ [(⟨PyClass.moduleList, [], llo.items⟩ : PyObj)])
          h.length (sortedDesc [i]) =
        (.ok (), heapSet (h ++ [(⟨PyClass.moduleList, [], llo.items⟩ : PyObj)]) h.length
          (⟨PyClass.moduleList, [], llo.items.eraseIdx (i + llo.items.length).toNat⟩ : PyObj)) := by
      rw [sortedDesc_single]
      have := delDescend_single (heapGet_alloc_self h
        (⟨PyClass.moduleList, [], llo.items⟩ : PyObj)) (by simpa using hnormi)
      simpa using this
    obtain ⟨hI, hF, heq, hIml, hIres, hIold, hFres, hFold⟩ :=
      delete_layers_run (b := fun hh => (Except.ok hh, hh)) hgtl hsplit hdig hch
        hnd hpen hllo hpenObj hdel (fun hh => rfl)
    exact ⟨hI, hF, ⟨.moduleList, [], llo.items.eraseIdx (i + llo.items.length).toNat⟩,
      heq, hIres, hIml, rfl⟩
  · have hset : setItemsH (h ++ [(⟨PyClass.moduleList, [], llo.items⟩ : PyObj)])
          h.length (([i] : List Int).zip [rep]) =
        (.ok (), heapSet (h ++ [(⟨PyClass.moduleList, [], llo.items⟩ : PyObj)]) h.length
          (⟨PyClass.moduleList, [], llo.items.set (i + llo.items.length).toNat rep⟩ : PyObj)) := by
      have := setItemsH_single (r := rep) (heapGet_alloc_self h
        (⟨PyClass.moduleList, [], llo.items⟩ : PyObj)) (by simpa using hnormi)
      simpa using this
    obtain ⟨hI, hF, heq, hIml, hIres, hIold, hFres, hFold⟩ :=
      replace_layers_run (b := fun hh => (Except.ok hh, hh)) hgtl hsplit hdig hch
        hnd hpen hllo hpenObj hset (fun hh => rfl)
    exact ⟨hI, hF, ⟨.moduleList, [], llo.items.set (i + llo.items.length).toNat rep⟩,
      heq, hIres, hIml, rfl⟩

/-- Witness for C10 at the sample heap: permuting with `[-1]` yields the
one-layer list holding the last layer, deleting `[-2]` removes the middle
layer, and replacing at `[-2]` swaps the middle layer. -/
theorem negative_index_semantics_witness :
    ((∀ j : Int, j < 0 → -(((3 : Nat) : Int)) ≤ j →
        pyNorm 3 j = some (j + 3).toNat) ∧
      ∃ hI hF mlo,
        permute_layers sampleHeap 0 [-1] (fun hh => (Except.ok hh, hh)) =
          (.ok hI, hF) ∧
        get_key_path hI 0 "base_model.decoder.layers" = .ok sampleHeap.length ∧
        heapGet hI sampleHeap.length = some mlo ∧
        mlo.items.length = ([-1] : List Int).length ∧
        (∀ k j jn, ([-1] : List Int).get? k = some j → pyNorm 3 j = some jn →
          mlo.items.get? k =
            (⟨PyClass.moduleList, [], [4, 5, 6]⟩ : PyObj).items.get? jn)) ∧
    (∃ hI hF mlo,
      delete_layers sampleHeap 0 [-2] (fun hh => (Except.ok hh, hh)) = (.ok hI, hF) ∧
      get_key_path hI 0 "base_model.decoder.layers" = .ok sampleHeap.length ∧
      heapGet hI sampleHeap.length = some mlo ∧
      mlo.items = ([4, 5, 6] : List Addr).eraseIdx ((-2 : Int) + 3).toNat) ∧
    (∃ hI hF mlo,
      replace_layers sampleHeap 0 [-2] [7] (fun hh => (Except.ok hh, hh)) =
        (.ok hI, hF) ∧
      get_key_path hI 0 "base_model.decoder.layers" = .ok sampleHeap.length ∧
      heapGet hI sampleHeap.length = some mlo ∧
      mlo.items = ([4, 5, 6] : List Addr).set ((-2 : Int) + 3).toNat 7) := by
  have t := negative_index_semantics sampleHeap 0 3 2 "base_model.decoder.layers"
    ["base_model", "decoder"] "layers" [0, 1, 2]
    ⟨PyClass.moduleList, [], [4, 5, 6]⟩ ⟨.plain, [("final_layer_norm", 7), ("layers", 3)], []⟩
    [-1] (-2) 7 (by decide) (by decide) (by decide) (by decide) (by decide)
    (by decide) (by decide) (by decide) (by decide) (by decide) (by decide)
  exact t

/-- Counterexample for C10 as stated: on the three-layer sample model both
`0` and `-3` are in range, yet `delete_layers` with `[0, -3]` raises
`IndexError`: after deleting index 0 the list has shrunk to length 2 and
`-3` no longer normalises. -/
theorem delete_mixed_negative_cex :
    (∀ j ∈ ([0, -3] : List Int), -((3 : Nat) : Int) ≤ j ∧ j < ((3 : Nat) : Int)) ∧
    (delete_layers sampleHeap 0 [0, -3]
      (fun hh => (Except.ok (0 : Nat), hh))).1 = .error .indexError := by
  refine ⟨by decide, by decide⟩

/-- C4 (amended): with any index outside the range of the located layer
list, `delete_layers` and `permute_layers` raise `IndexError` before the
new sequence is installed, leaving every existing address and the layer
path's resolution unchanged; `replace_layers` does so only when the
out-of-range index lies within the zip of indices and replacements — an
out-of-range index beyond the zip truncation is silently ignored. -/
theorem out_of_range_raises {α : Type} (h : Heap) (model ll : Addr)
    (lp : String) (llo : PyObj) (dIdx pIdx rIdx : List Int) (reps : List Addr)
    (b1 b2 b3 : Heap → Except Err α × Heap)
    (hgtl : get_transformer_layers h model = .ok (lp, ll))
    (hllo : heapGet h ll = some llo) :
    ((∃ i ∈ dIdx, (llo.items.length : Int) ≤ i ∨ i < -(llo.items.length : Int)) →
      ∃ h2, delete_layers h model dIdx b1 = (.error .indexError, h2) ∧
        (∀ x, x < h.length → heapGet h2 x = heapGet h x) ∧
        get_key_path h2 model lp = .ok ll) ∧
    ((∃ i ∈ pIdx, (llo.items.length : Int) ≤ i ∨ i < -(llo.items.length : Int)) →
      permute_layers h model pIdx b2 = (.error .indexError, h)) ∧
    ((∃ p ∈ rIdx.zip reps, (llo.items.length : Int) ≤ p.1 ∨
        p.1 < -(llo.items.length : Int)) →
      ∃ h2, replace_layers h model rIdx reps b3 = (.error .indexError, h2) ∧
        (∀ x, x < h.length → heapGet h2 x = heapGet h x) ∧
        get_key_path h2 model lp = .ok ll) :=
  ⟨fun hoob => delete_layers_oob hgtl hllo hoob,
   fun hoob => permute_layers_oob hgtl hllo hoob,
   fun hoob => replace_layers_oob hgtl hllo hoob⟩

/-- Witness for C4 at the sample heap with out-of-range index 5: delete and
permute raise `IndexError` leaving the model intact, and replace raises
when the bad pair survives the zip. -/
theorem out_of_range_raises_witness :
    (∃ h2, delete_layers sampleHeap 0 [5]
        (fun hh => (Except.ok (0 : Nat), hh)) = (.error .indexError, h2) ∧
      (∀ x, x < sampleHeap.length → heapGet h2 x = heapGet sampleHeap x) ∧
      get_key_path h2 0 "base_model.decoder.layers" = .ok 3) ∧
    permute_layers sampleHeap 0 [5]
      (fun hh => (Except.ok (0 : Nat), hh)) = (.error .indexError, sampleHeap) ∧
    (∃ h2, replace_layers sampleHeap 0 [5] [6]
        (fun hh => (Except.ok (0 : Nat), hh)) = (.error .indexError, h2) ∧
      (∀ x, x < sampleHeap.length → heapGet h2 x = heapGet sampleHeap x) ∧
      get_key_path h2 0 "base_model.decoder.layers" = .ok 3) := by
  have t := out_of_range_raises sampleHeap 0 3 "base_model.decoder.layers"
    ⟨PyClass.moduleList, [], [4, 5, 6]⟩ [5] [5] [5] [6]
    (fun hh => (Except.ok (0 : Nat), hh)) (fun hh => (Except.ok (0 : Nat), hh))
    (fun hh => (Except.ok (0 : Nat), hh)) (by decide) (by decide)
  exact ⟨t.1 ⟨5, by decide, by decide⟩, t.2.1 ⟨5, by decide, by decide⟩,
    t.2.2 ⟨(5, 6), by decide, by decide⟩⟩

/-- Counterexample for C4 as stated: `replace_layers` given the
out-of-range index 5 (three-layer list) together with only one replacement
does not raise — the zip truncates the bad index away and the scope
proceeds with layer 0 replaced. -/
theorem replace_oob_truncated_cex :
    ((3 : Int) ≤ 5 ∨ (5 : Int) < -3) ∧
    (replace_layers sampleHeap 0 [0, 5] [6]
      (fun hh => (Except.ok hh, hh))).1 ≠ .error .indexError ∧
    (heapGet (insideHeapOf (replace_layers sampleHeap 0 [0, 5] [6]
      (fun hh => (Except.ok hh, hh)))) 8).map PyObj.items = some [6, 5, 6] := by
  refine ⟨by decide, by decide, by decide⟩

/-- C2 (amended): for every scoped operation — `assign_key_path`,
`delete_layers`, `permute_layers`, `replace_layers` — and every exit mode
(the body's outcome `r` may be a normal value or an exception), provided
the walk to the mutated path's penultimate object visits pairwise-distinct
objects (no aliasing through the prefix) and the scope entered successfully,
the value resolved at the mutated key path after exit is the identical
address that was there before entry, and the body's outcome — exceptions
included — passes through unchanged.  (On self-aliasing paths the claim as
stated fails.) -/
theorem scoped_ops_restore (α : Type) (h : Heap) (model : Addr)
    (path : String) (value old pen0 : Addr) (iks0 : List String) (lk0 : String)
    (ch0 : List Addr) (oPen0 : PyObj)
    (lp : String) (ll pen : Addr) (iks : List String) (lk : String)
    (ch : List Addr) (llo oPen : PyObj)
    (dIdx pIdx rIdx : List Int) (reps sel dItems rItems : List Addr)
    (r : Except Err α)
    (hres0 : get_key_path h model path = .ok old)
    (hsplit0 : splitKeys path = iks0 ++ [lk0])
    (hch0 : walkChain h model iks0 = some ch0)
    (hnd0 : ch0.Nodup)
    (hpen0 : ch0.getLastD 0 = pen0)
    (hpenObj0 : heapGet h pen0 = some oPen0)
    (hgtl : get_transformer_layers h model = .ok (lp, ll))
    (hsplit : splitKeys lp = iks ++ [lk])
    (hdig : strIsDigit lk = false)
    (hch : walkChain h model iks = some ch)
    (hnd : ch.Nodup)
    (hpen : ch.getLastD 0 = pen)
    (hllo : heapGet h ll = some llo)
    (hpenObj : heapGet h pen = some oPen)
    (hdel : delDescend (h ++ [(⟨PyClass.moduleList, [], llo.items⟩ : PyObj)])
        h.length (sortedDesc dIdx) =
      (.ok (), heapSet (h ++ [(⟨PyClass.moduleList, [], llo.items⟩ : PyObj)]) h.length
        (⟨PyClass.moduleList, [], dItems⟩ : PyObj)))
    (hsel : buildPermuted llo.items pIdx = .ok sel)
    (hset : setItemsH (h ++ [(⟨PyClass.moduleList, [], llo.items⟩ : PyObj)])
        h.length (rIdx.zip reps) =
      (.ok (), heapSet (h ++ [(⟨PyClass.moduleList, [], llo.items⟩ : PyObj)]) h.length
        (⟨PyClass.moduleList, [], rItems⟩ : PyObj))) :
    (∃ hF, assign_key_path h model path value (fun hh => (r, hh)) = (r, hF) ∧
      get_key_path hF model path = .ok old) ∧
    (∃ hF, delete_layers h model dIdx (fun hh => (r, hh)) = (r, hF) ∧
      get_key_path hF model lp = .ok ll) ∧
    (∃ hF, permute_layers h model pIdx (fun hh => (r, hh)) = (r, hF) ∧
      get_key_path hF model lp = .ok ll) ∧
    (∃ hF, replace_layers h model rIdx reps (fun hh => (r, hh)) = (r, hF) ∧
      get_key_path hF model lp = .ok ll) := by
  refine ⟨?_, ?_, ?_, ?_⟩
  · obtain ⟨hI, hF, heq, hFres, _, _⟩ :=
      assign_key_path_run (b := fun hh => (r, hh)) (v := value)
        hres0 hsplit0 hch0 hnd0 hpen0 hpenObj0 (fun hh => rfl)
    exact ⟨hF, heq, hFres⟩
  · obtain ⟨hI, hF, heq, _, _, _, hFres, _⟩ :=
      delete_layers_run (b := fun hh => (r, hh)) hgtl hsplit hdig hch hnd hpen
        hllo hpenObj hdel (fun hh => rfl)
    exact ⟨hF, heq, hFres⟩
  · obtain ⟨hI, hF, heq, _, _, _, hFres, _⟩ :=
      permute_layers_run (b := fun hh => (r, hh)) hgtl hsplit hdig hch hnd hpen
        hllo hpenObj hsel (fun hh => rfl)
    exact ⟨hF, heq, hFres⟩
  · obtain ⟨hI, hF, heq, _, _, _, hFres, _⟩ :=
      replace_layers_run (b := fun hh => (r, hh)) hgtl hsplit hdig hch hnd hpen
        hllo hpenObj hset (fun hh => rfl)
    exact ⟨hF, heq, hFres⟩

/-- Witness for C2 at the sample heap with a body that raises: the final
norm assignment and all three layer scopes propagate the body's exception
and restore the mutated path's resolution to the original address. -/
theorem scoped_ops_restore_witness :
    (∃ hF, assign_key_path sampleHeap 0 "base_model.decoder.final_layer_norm" 4
        (fun hh => ((Except.error (Err.userError 42) : Except Err Unit), hh)) =
        ((Except.error (Err.userError 42) : Except Err Unit), hF) ∧
      get_key_path hF 0 "base_model.decoder.final_layer_norm" = .ok 7) ∧
    (∃ hF, delete_layers sampleHeap 0 [1]
        (fun hh => ((Except.error (Err.userError 42) : Except Err Unit), hh)) =
        ((Except.error (Err.userError 42) : Except Err Unit), hF) ∧
      get_key_path hF 0 "base_model.decoder.layers" = .ok 3) ∧
    (∃ hF, permute_layers sampleHeap 0 [0, 0, 2]
        (fun hh => ((Except.error (Err.userError 42) : Except Err Unit), hh)) =
        ((Except.error (Err.userError 42) : Except Err Unit), hF) ∧
      get_key_path hF 0 "base_model.decoder.layers" = .ok 3) ∧
    (∃ hF, replace_layers sampleHeap 0 [0] [6]
        (fun hh => ((Except.error (Err.userError 42) : Except Err Unit), hh)) =
        ((Except.error (Err.userError 42) : Except Err Unit), hF) ∧
      get_key_path hF 0 "base_model.decoder.layers" = .ok 3) := by
  have t := scoped_ops_restore Unit sampleHeap 0
    "base_model.decoder.final_layer_norm" 4 7 2 ["base_model", "decoder"]
    "final_layer_norm" [0, 1, 2] ⟨.plain, [("final_layer_norm", 7), ("layers", 3)], []⟩
    "base_model.decoder.layers" 3 2 ["base_model", "decoder"] "layers"
    [0, 1, 2] ⟨PyClass.moduleList, [], [4, 5, 6]⟩
    ⟨.plain, [("final_layer_norm", 7), ("layers", 3)], []⟩
    [1] [0, 0, 2] [0] [6] [4, 4, 6] [4, 6] [6, 5, 6]
    (Except.error (Err.userError 42))
    (by decide) (by decide) (by decide) (by decide) (by decide) (by decide)
    (by decide) (by decide) (by decide) (by decide) (by decide) (by decide)
    (by decide) (by decide) (by decide) (by decide) (by decide)
  exact t

/-- Counterexample for C2 as stated: on the self-referential model whose
attribute `a` is the model itself, the scope `assign_key_path(model,
"a.a.a", 1)` has a normally-completing body, yet the restore step raises
`AttributeError`, the scope's outcome is that error instead of the body's
value, and the path no longer resolves to the pre-entry object after exit. -/
theorem assign_alias_cex :
    get_key_path loopHeap 0 "a.a.a" = .ok 0 ∧
    assign_key_path loopHeap 0 "a.a.a" 1 (fun hh => (Except.ok (0 : Nat), hh)) =
      (.error (.attributeError "a"), [⟨.plain, [("a", 1)], []⟩, ⟨.plain, [], []⟩]) ∧
    get_key_path [(⟨.plain, [("a", 1)], []⟩ : PyObj), ⟨.plain, [], []⟩] 0 "a.a.a" =
      .error (.attributeError "a") := by
  refine ⟨by decide, by decide, by decide⟩

/-- C8 (amended): `get_transformer_layers` raises the configuration
`ValueError` exactly when the `base_model` attribute is absent, and
`NotImplementedError` exactly when `base_model` is present but its class is
not a recognised architecture family; `get_final_norm` raises the same
`ValueError` exactly when `base_model` is absent but can also raise a
different `ValueError` when the located final norm is `None`; both
functions are pure reads and mutate nothing by construction.  (The claim's
"configuration-error kind exactly when the handle is absent" fails for
`get_final_norm` on a `None` final norm.) -/
theorem locator_error_kinds (h : Heap) (m : Addr) (mo : PyObj)
    (hm : heapGet h m = some mo) :
    (get_transformer_layers h m =
        .error (.valueError "Model does not have a `base_model` attribute.") ↔
      lookupAttr mo.attrs "base_model" = none) ∧
    (get_final_norm h m =
        .error (.valueError "Model does not have a `base_model` attribute.") ↔
      lookupAttr mo.attrs "base_model" = none) ∧
    (get_transformer_layers h m = .error .notImplementedError ↔
      ∃ bm bmo, lookupAttr mo.attrs "base_model" = some bm ∧
        heapGet h bm = some bmo ∧ layersPathTail bmo.cls = none) ∧
    (get_final_norm h m = .error .notImplementedError ↔
      ∃ bm bmo, lookupAttr mo.attrs "base_model" = some bm ∧
        heapGet h bm = some bmo ∧ finalNormPath bmo.cls = none) := by
  refine ⟨?_, ?_, ?_, ?_⟩
  · unfold get_transformer_layers
    rw [hm]
    simp only []
    cases hbm : lookupAttr mo.attrs "base_model" with
    | none => simp
    | some bm =>
      simp only []
      constructor
      · intro hc
        exfalso
        cases hb : heapGet h bm with
        | none => rw [hb] at hc; simp at hc
        | some bmo =>
          rw [hb] at hc
          simp only [] at hc
          cases ht : layersPathTail bmo.cls with
          | none => rw [ht] at hc; simp at hc
          | some tail =>
            rw [ht] at hc
            simp only [] at hc
            cases hg : get_key_path h m
                (String.intercalate "." ("base_model" :: tail)) with
            | error e =>
              rw [hg] at hc
              simp only [] at hc
              injection hc with he
              rcases walkKeys_error_kinds hg with ⟨k, hk⟩ | hk <;>
                (subst hk; simp at he)
            | ok v => rw [hg] at hc; simp at hc
      · intro hc
        simp at hc
  · unfold get_final_norm
    rw [hm]
    simp only []
    cases hbm : lookupAttr mo.attrs "base_model" with
    | none => simp
    | some bm =>
      simp only []
      constructor
      · intro hc
        exfalso
        cases hb : heapGet h bm with
        | none => rw [hb] at hc; simp at hc
        | some bmo =>
          rw [hb] at hc
          simp only [] at hc
          cases ht : finalNormPath bmo.cls with
          | none => rw [ht] at hc; simp at hc
          | some p =>
            rw [ht] at hc
            simp only [] at hc
            cases hg : getattrPath h bm p with
            | error e =>
              rw [hg] at hc
              simp only [] at hc
              injection hc with he
              obtain ⟨k, hk⟩ := getattrPath_error_kinds hg
              subst hk
              simp at he
            | ok fln =>
              rw [hg] at hc
              simp only [] at hc
              cases hf : heapGet h fln with
              | none => rw [hf] at hc; simp at hc
              | some fo =>
                rw [hf] at hc
                simp only [] at hc
                by_cases hn : fo.cls = .noneType
                · rw [if_pos hn] at hc
                  injection hc with he
                  injection he with hs
                  exact absurd hs (by decide)
                · rw [if_neg hn] at hc
                  by_cases hl : fo.cls = .layerNorm
                  · rw [if_pos hl] at hc; simp at hc
                  · rw [if_neg hl] at hc; simp at hc
      · intro hc
        simp at hc
  · unfold get_transformer_layers
    rw [hm]
    simp only []
    cases hbm : lookupAttr mo.attrs "base_model" with
    | none => simp
    | some bm =>
      simp only []
      cases hb : heapGet h bm with
      | none =>
        simp only []
        constructor
        · intro hc; simp at hc
        · rintro ⟨bm', bmo', h1, h2, h3⟩
          injection h1 with h1'
          subst h1'
          rw [hb] at h2
          cases h2
      | some bmo =>
        simp only []
        cases ht : layersPathTail bmo.cls with
        | none =>
          simp only []
          constructor
          · intro _
            exact ⟨bm, bmo, rfl, hb, ht⟩
          · intro _
            trivial
        | some tail =>
          simp only []
          constructor
          · intro hc
            exfalso
            cases hg : get_key_path h m
                (String.intercalate "." ("base_model" :: tail)) with
            | error e =>
              rw [hg] at hc
              simp only [] at hc
              injection hc with he
              rcases walkKeys_error_kinds hg with ⟨k, hk⟩ | hk <;>
                (subst hk; simp at he)
            | ok v => rw [hg] at hc; simp at hc
          · rintro ⟨bm', bmo', h1, h2, h3⟩
            injection h1 with h1'
            subst h1'
            rw [hb] at h2
            injection h2 with h2'
            subst h2'
            rw [ht] at h3
            cases h3
  · unfold get_final_norm
    rw [hm]
    simp only []
    cases hbm : lookupAttr mo.attrs "base_model" with
    | none => simp
    | some bm =>
      simp only []
      cases hb : heapGet h bm with
      | none =>
        simp only []
        constructor
        · intro hc; simp at hc
        · rintro ⟨bm', bmo', h1, h2, h3⟩
          injection h1 with h1'
          subst h1'
          rw [hb] at h2
          cases h2
      | some bmo =>
        simp only []
        cases ht : finalNormPath bmo.cls with
        | none =>
          simp only []
          constructor
          · intro _
            exact ⟨bm, bmo, rfl, hb, ht⟩
          · intro _
            trivial
        | some p =>
          simp only []
          constructor
          · intro hc
            exfalso
            cases hg : getattrPath h bm p with
            | error e =>
              rw [hg] at hc
              simp only [] at hc
              injection hc with he
              obtain ⟨k, hk⟩ := getattrPath_error_kinds hg
              subst hk
              simp at he
            | ok fln =>
              rw [hg] at hc
              simp only [] at hc
              cases hf : heapGet h fln with
              | none => rw [hf] at hc; simp at hc
              | some fo =>
                rw [hf] at hc
                simp only [] at hc
                by_cases hn : fo.cls = .noneType
                · rw [if_pos hn] at hc; simp at hc
                · rw [if_neg hn] at hc
                  by_cases hl : fo.cls = .layerNorm
                  · rw [if_pos hl] at hc; simp at hc
                  · rw [if_neg hl] at hc; simp at hc
          · rintro ⟨bm', bmo', h1, h2, h3⟩
            injection h1 with h1'
            subst h1'
            rw [hb] at h2
            injection h2 with h2'
            subst h2'
            rw [ht] at h3
            cases h3

/-- Witness for C8: on a model without `base_model` both locators raise the
configuration `ValueError`, and on a model whose `base_model` class is
unrecognised both raise `NotImplementedError`. -/
theorem locator_error_kinds_witness :
    get_transformer_layers noBaseHeap 0 =
      .error (.valueError "Model does not have a `base_model` attribute.") ∧
    get_final_norm noBaseHeap 0 =
      .error (.valueError "Model does not have a `base_model` attribute.") ∧
    get_transformer_layers [⟨.plain, [("base_model", 1)], []⟩, ⟨.plain, [], []⟩] 0 =
      .error .notImplementedError ∧
    get_final_norm [⟨.plain, [("base_model", 1)], []⟩, ⟨.plain, [], []⟩] 0 =
      .error .notImplementedError := by
  have t1 := locator_error_kinds noBaseHeap 0 ⟨.plain, [], []⟩ (by decide)
  have t2 := locator_error_kinds [⟨.plain, [("base_model", 1)], []⟩, ⟨.plain, [], []⟩]
    0 ⟨.plain, [("base_model", 1)], []⟩ (by decide)
  exact ⟨t1.1.mpr (by decide), t1.2.1.mpr (by decide),
    t2.2.2.1.mpr ⟨1, ⟨.plain, [], []⟩, by decide, by decide, by decide⟩,
    t2.2.2.2.mpr ⟨1, ⟨.plain, [], []⟩, by decide, by decide, by decide⟩⟩

/-- Counterexample for C8 as stated: on an OPT-style model whose decoder's
`final_layer_norm` is `None`, the `base_model` handle is present, yet
`get_final_norm` raises a `ValueError` — the configuration-error kind is
not raised exactly when the handle is absent. -/
theorem final_norm_none_cex :
    lookupAttr (⟨.plain, [("base_model", 1)], []⟩ : PyObj).attrs "base_model" =
      some 1 ∧
    heapGet noneNormHeap 0 = some ⟨.plain, [("base_model", 1)], []⟩ ∧
    get_final_norm noneNormHeap 0 =
      .error (.valueError "Model does not have a final layer norm.") := by
  refine ⟨by decide, by decide, by decide⟩

end ModelSurgery
